import Mathlib

/-!
Verification development for the Blocana blockchain node.

This file gives a shallow embedding, in Lean 4, of the parts of the
Blocana Rust sources that the specification's testable claims are about:

* `src/crypto/mod.rs`      — Merkle root computation;
* `src/transaction/mod.rs` — the `Transaction` record, structural
  verification and size/fee estimation;
* `src/state/mod.rs`       — `AccountState`, `BlockchainState`,
  `apply_transaction`, `apply_block`;
* `src/storage/mod.rs`     — the column-family store, `store_block`,
  the read paths and `verify_integrity`;
* `src/transaction/pool.rs` — the mempool: admission with replacement,
  removal, eviction, memory accounting and greedy selection.

Machine integers (`u64`, `usize`) are embedded as `Nat` together with
explicit saturating/wrapping operators applied exactly where the Rust
code applies them.  Rust `HashMap`s are embedded as association lists
(`List (key, value)`) whose iteration order is the list order; Rust
`HashSet`s as lists.  Cryptographic functions (SHA-256, Ed25519) are
not interpreted: hashing functions are taken as parameters of the
definitions that use them, and signature validity is a Boolean
parameter, so every theorem holds for all interpretations (witnesses
instantiate them with concrete functions).  `Instant` timestamps are
modelled as `Nat` values passed in by the caller.
-/

namespace Blocana

/-! ## Machine-integer helpers (u64 arithmetic on Nat) -/

/-- The number of values of a `u64`; `u64` values live in `[0, U64)`. -/
def U64 : Nat := 2 ^ 64

/-- Rust `u64::saturating_add`. -/
def satAdd (a b : Nat) : Nat := min (a + b) (U64 - 1)

/-- Rust `u64::saturating_sub` (on `Nat` arguments below `U64` this is
truncated subtraction, which is exactly `Nat` subtraction). -/
def satSub (a b : Nat) : Nat := a - b

/-- Rust `u64` wrapping addition (release-profile overflow semantics). -/
def wrapAdd (a b : Nat) : Nat := (a + b) % U64

/-- Rust `u64` wrapping subtraction (release-profile overflow semantics),
for arguments already reduced below `U64`. -/
def wrapSub (a b : Nat) : Nat := (a + U64 - b) % U64

/-- Rust `u64::checked_mul x y |>.unwrap_or(u64::MAX)`. -/
def checkedMulOrMax (a b : Nat) : Nat := if a * b < U64 then a * b else U64 - 1

theorem satAdd_eq (a b : Nat) (h : a + b < U64) : satAdd a b = a + b := by
  unfold satAdd
  omega

theorem wrapAdd_eq (a b : Nat) (h : a + b < U64) : wrapAdd a b = a + b := by
  unfold wrapAdd
  exact Nat.mod_eq_of_lt h

theorem wrapSub_eq (a b : Nat) (ha : a < U64) (hba : b ≤ a) : wrapSub a b = a - b := by
  unfold wrapSub
  have h1 : a + U64 - b = U64 + (a - b) := by omega
  rw [h1, Nat.add_mod_left]
  exact Nat.mod_eq_of_lt (by omega)

/-! ## Association-list helpers

Rust `HashMap`s are modelled as association lists: `lookup` finds the
entry for a key, `insertA` replaces the value of an existing key in
place or appends a fresh entry, `eraseA` removes a key.  List order
stands for the (unspecified) iteration order of the Rust map. -/

/-- Look up a key in an association list (`HashMap::get`). -/
def lookupA {α β : Type} [DecidableEq α] : List (α × β) → α → Option β
  | [], _ => none
  | (k, v) :: rest, a => if k = a then some v else lookupA rest a

/-- Key membership in an association list (`HashMap::contains_key`). -/
def containsKeyA {α β : Type} [DecidableEq α] (l : List (α × β)) (a : α) : Bool :=
  (lookupA l a).isSome

/-- Insert a key/value pair (`HashMap::insert`): replaces in place if the
key is present, otherwise appends. -/
def insertA {α β : Type} [DecidableEq α] : List (α × β) → α → β → List (α × β)
  | [], a, b => [(a, b)]
  | (k, v) :: rest, a, b =>
    if k = a then (k, b) :: rest else (k, v) :: insertA rest a b

/-- Remove a key (`HashMap::remove`), keeping the remaining order. -/
def eraseA {α β : Type} [DecidableEq α] : List (α × β) → α → List (α × β)
  | [], _ => []
  | (k, v) :: rest, a => if k = a then rest else (k, v) :: eraseA rest a

theorem lookupA_insertA_self {α β : Type} [DecidableEq α]
    (l : List (α × β)) (a : α) (b : β) :
    lookupA (insertA l a b) a = some b := by
  induction l with
  | nil => simp [insertA, lookupA]
  | cons hd tl ih =>
    obtain ⟨k, v⟩ := hd
    by_cases hk : k = a
    · simp [insertA, hk, lookupA]
    · simp [insertA, hk, lookupA, ih]

theorem lookupA_insertA_ne {α β : Type} [DecidableEq α]
    (l : List (α × β)) (a c : α) (b : β)
    (h : c ≠ a) : lookupA (insertA l a b) c = lookupA l c := by
  induction l with
  | nil =>
    have hac : ¬ (a = c) := fun h2 => h h2.symm
    simp [insertA, lookupA, hac]
  | cons hd tl ih =>
    obtain ⟨k, v⟩ := hd
    by_cases hk : k = a
    · subst hk
      have hkc : ¬ (k = c) := fun h2 => h h2.symm
      simp [insertA, lookupA, hkc]
    · simp [insertA, hk, lookupA]
      by_cases hkc : k = c
      · simp [hkc]
      · simp [hkc, ih]

/-! ## Transactions (src/transaction/mod.rs)

The `Transaction` struct.  Byte arrays (`PublicKeyBytes`, data bytes,
`SignatureBytes`) are modelled as `Nat` identifiers or `List Nat`
byte lists; only their lengths and equality matter to the claims. -/

/-- Embedding of `Transaction`. Addresses are abstract `Nat` identifiers;
`data` is the byte vector (length is what the claims use); `signature`
is kept as an abstract `Nat`. -/
structure Tx where
  version : Nat
  sender : Nat
  recipient : Nat
  amount : Nat
  fee : Nat
  nonce : Nat
  data : List Nat
  signature : Nat
  deriving DecidableEq, Repr

namespace Tx

/-- Embedding of `Transaction::estimate_size`: the base size
1 (version) + 32 (sender) + 32 (recipient) + 8 (amount) + 8 (fee)
+ 8 (nonce) + 64 (signature) = 153 bytes, plus the length of `data`.
(The Rust source has no length-prefix term in this sum.) -/
def estimateSize (tx : Tx) : Nat :=
  1 + 32 + 32 + 8 + 8 + 8 + 64 + tx.data.length

/-- Embedding of the structural part of `Transaction::verify`:
version = 1, amount ≠ 0, fee ≠ 0, data ≤ 10 KiB, sender ≠ recipient,
`amount.checked_add(fee)` does not overflow.  The Ed25519 signature
check is the parameter `sigOk`. -/
def verifyOk (sigOk : Tx → Bool) (tx : Tx) : Bool :=
  tx.version = 1 && tx.amount ≠ 0 && tx.fee ≠ 0 &&
  tx.data.length ≤ 1024 * 10 && tx.sender ≠ tx.recipient &&
  tx.amount + tx.fee < U64 && sigOk tx

end Tx

/-- The fee-per-byte computation the pool uses everywhere
(`TransactionPool::calculate_fee_per_byte` and the inline copies in
`add_transaction_with_replacement` and friends): integer division
`fee / estimate_size()`, with the size-zero guard returning `fee`. -/
def calculateFeePerByte (tx : Tx) : Nat :=
  if tx.estimateSize = 0 then tx.fee else tx.fee / tx.estimateSize

/-! ## Merkle root (src/crypto/mod.rs, compute_merkle_root)

Hashes are abstract `Nat` values; the all-zero hash `[0u8; 32]` is
modelled as `0`, and SHA-256 of a concatenated pair (`hash_pair`) is a
parameter `hp`. -/

/-- One pass of the pairing loop `for i in (0..hashes.len()).step_by(2)`:
combine consecutive pairs with `hash_pair`.  On the even-length lists
the loop runs on, the singleton case is unreachable. -/
def pairUp (hp : Nat → Nat → Nat) : List Nat → List Nat
  | a :: b :: rest => hp a b :: pairUp hp rest
  | _ => []

theorem pairUp_length (hp : Nat → Nat → Nat) :
    ∀ l : List Nat, (pairUp hp l).length = l.length / 2
  | [] => by simp [pairUp]
  | [_] => by simp [pairUp]
  | _ :: _ :: rest => by
    simp [pairUp, pairUp_length hp rest]
    omega

/-- The odd-level duplication `if hashes.len() % 2 != 0 { hashes.push(last) }`. -/
def padEven (l : List Nat) : List Nat :=
  if l.length % 2 ≠ 0 then l ++ [l.getLast!] else l

theorem padEven_length (l : List Nat) :
    (padEven l).length = if l.length % 2 ≠ 0 then l.length + 1 else l.length := by
  unfold padEven
  by_cases h : l.length % 2 ≠ 0 <;> simp [h]

/-- The `while hashes.len() > 1` loop of `compute_merkle_root`:
pad to even length, combine pairs, repeat; finally return `hashes[0]`. -/
def merkleLoop (hp : Nat → Nat → Nat) (l : List Nat) : Nat :=
  if _h : l.length ≤ 1 then l.headD 0
  else merkleLoop hp (pairUp hp (padEven l))
termination_by l.length
decreasing_by
  rw [pairUp_length, padEven_length]
  by_cases hodd : l.length % 2 = 0
  · rw [if_neg (by omega)]
    omega
  · rw [if_pos (by omega)]
    omega

/-- Embedding of `compute_merkle_root`: the all-zero hash for an empty
input, otherwise the level-by-level loop. -/
def computeMerkleRoot (hp : Nat → Nat → Nat) (leaves : List Nat) : Nat :=
  if leaves.isEmpty then 0 else merkleLoop hp leaves

/-- Modelled from the spec (§4.1 / T3), for comparison with
`computeMerkleRoot`: the root of an empty sequence is the all-zero
hash; the root of a singleton is that leaf; otherwise duplicate the
last hash of an odd level and recurse on the parent level built by
`hash_pair` of consecutive pairs. -/
def specMerkleRoot (hp : Nat → Nat → Nat) : List Nat → Nat
  | [] => 0
  | [h] => h
  | a :: b :: rest => specMerkleRoot hp (pairUp hp (padEven (a :: b :: rest)))
termination_by l => l.length
decreasing_by
  rw [pairUp_length, padEven_length]
  simp only [List.length_cons]
  by_cases hodd : (rest.length + 1 + 1) % 2 = 0
  · rw [if_neg (by omega)]
    omega
  · rw [if_pos (by omega)]
    omega

theorem merkleLoop_eq_spec (hp : Nat → Nat → Nat) (l : List Nat) (hne : l ≠ []) :
    merkleLoop hp l = specMerkleRoot hp l := by
  induction l using specMerkleRoot.induct hp with
  | case1 => simp at hne
  | case2 h => simp [merkleLoop, specMerkleRoot]
  | case3 a b rest ih =>
    rw [specMerkleRoot, merkleLoop]
    have hlen : ¬ (a :: b :: rest).length ≤ 1 := by simp
    simp only [hlen, dite_false]
    have hne2 : pairUp hp (padEven (a :: b :: rest)) ≠ [] := by
      have hlp := pairUp_length hp (padEven (a :: b :: rest))
      have hpl := padEven_length (a :: b :: rest)
      intro hcon
      rw [hcon] at hlp
      simp only [List.length_nil, List.length_cons] at hlp hpl
      by_cases hodd2 : (rest.length + 1 + 1) % 2 = 0
      · rw [if_neg (by omega)] at hpl
        omega
      · rw [if_pos (by omega)] at hpl
        omega
    exact ih hne2

/-! ## Account state and block application (src/state/mod.rs) -/

/-- Embedding of `AccountState`; `code` and `storage` exist for future
smart-contract use and are never touched by state application. -/
structure AccountState where
  balance : Nat
  nonce : Nat
  code : Option (List Nat)
  storage : List (Nat × List Nat)
  deriving DecidableEq, Repr

/-- `AccountState::new()`: the zero account. -/
def AccountState.new : AccountState :=
  { balance := 0, nonce := 0, code := none, storage := [] }

/-- Embedding of `BlockchainState`: the `accounts` HashMap as an
association list from address to account state. -/
structure BState where
  accounts : List (Nat × AccountState)
  deriving DecidableEq, Repr

/-- Embedding of `BlockchainState::get_account_state`: returns the
account for the address, inserting a fresh zero account into the map
first when the address is absent (`entry(..).or_insert_with(new)`).
The returned pair is (state after the possible insertion, account). -/
def BState.getAccountState (s : BState) (address : Nat) : BState × AccountState :=
  match lookupA s.accounts address with
  | some acct => (s, acct)
  | none => (⟨s.accounts ++ [(address, AccountState.new)]⟩, AccountState.new)

/-- The balance/nonce view of an address: the stored account if present,
otherwise the implicit zero account. -/
def BState.view (s : BState) (address : Nat) : Nat × Nat :=
  match lookupA s.accounts address with
  | some acct => (acct.balance, acct.nonce)
  | none => (0, 0)

/-- Errors surfaced by state application (`crate::Error::Validation`
with the corresponding message). -/
inductive StateErr where
  | invalidNonce (expected actual : Nat)
  | insufficientBalance (balance required : Nat)
  deriving DecidableEq, Repr

/-- Embedding of `BlockchainState::apply_transaction`.  The Rust method
mutates `self` and returns `Result<(), Error>`; here the updated state
is returned alongside the optional error.  Failure paths return the
state as mutated so far (only the `get_account_state` default
insertion can have happened by then). -/
def BState.applyTransaction (s : BState) (tx : Tx) : Option StateErr × BState :=
  let (s1, sender) := s.getAccountState tx.sender
  if tx.nonce ≠ sender.nonce then
    (some (.invalidNonce sender.nonce tx.nonce), s1)
  else
    let total := satAdd tx.amount tx.fee
    if sender.balance < total then
      (some (.insufficientBalance sender.balance total), s1)
    else
      let sender2 := { sender with balance := satSub sender.balance total,
                                   nonce := wrapAdd sender.nonce 1 }
      let s2 : BState := ⟨insertA s1.accounts tx.sender sender2⟩
      let (s3, recipient) := s2.getAccountState tx.recipient
      let recipient2 := { recipient with balance := satAdd recipient.balance tx.amount }
      (none, ⟨insertA s3.accounts tx.recipient recipient2⟩)

/-- Embedding of the loop of `BlockchainState::apply_block`: apply the
transactions in order, stopping at (and returning) the first error. -/
def BState.applyTxList (s : BState) : List Tx → Option StateErr × BState
  | [] => (none, s)
  | tx :: rest =>
    match s.applyTransaction tx with
    | (none, s2) => s2.applyTxList rest
    | (some e, s2) => (some e, s2)

/-! ## Blocks (src/block.rs, the parts the claims use) -/

/-- Embedding of `BlockHeader`; hashes, the validator key and the
signature are abstract `Nat` values. -/
structure BlockHeader where
  version : Nat
  prevHash : Nat
  merkleRoot : Nat
  timestamp : Nat
  height : Nat
  validator : Nat
  signature : Nat
  deriving DecidableEq, Repr

/-- Embedding of `Block`: a header plus the ordered transactions. -/
structure Blk where
  header : BlockHeader
  transactions : List Tx
  deriving DecidableEq, Repr

/-- Embedding of `BlockchainState::apply_block`: apply the block's
transactions in their on-disk order. -/
def BState.applyBlock (s : BState) (b : Blk) : Option StateErr × BState :=
  s.applyTxList b.transactions

/-! ## Persistent store (src/storage/mod.rs)

The six column families share one atomic write unit; the model keeps
the four the claims touch (`account_state` and `metadata` are not
involved in C4/C6).  `BlockHeader::hash` (SHA-256 of the header
preimage) is a parameter `hh`; `Transaction::hash` is a parameter
`txH`.  RocksDB stores `block_height` keys as little-endian `u64`
bytes and iterates them in lexicographic byte order, which the model
reproduces via `leBytes`/`lexLtB`. -/

/-- Storage errors: `Error::Database(..)` and `Error::NotFound(..)`. -/
inductive StoreErr where
  | database
  | notFound
  deriving DecidableEq, Repr

/-- The store contents relevant to the claims: `blocks` (hash → block),
`block_height` (height → hash), `transactions` (tx hash →
(block hash, index)), `timestamp_index` ((timestamp, height) → hash). -/
structure Store where
  blocks : List (Nat × Blk)
  heightIdx : List (Nat × Nat)
  txIdx : List (Nat × (Nat × Nat))
  tsIdx : List ((Nat × Nat) × Nat)
  deriving DecidableEq, Repr

/-- The store of a freshly opened database. -/
def Store.empty : Store := ⟨[], [], [], []⟩

/-- The tx-location insertion loop of `store_block`:
`for (i, tx) in block.transactions.iter().enumerate()`. -/
def insertTxLocs (txH : Tx → Nat) (blockHash : Nat) :
    List (Nat × (Nat × Nat)) → List Tx → Nat → List (Nat × (Nat × Nat))
  | idx, [], _ => idx
  | idx, t :: rest, i => insertTxLocs txH blockHash (insertA idx (txH t) (blockHash, i)) rest (i + 1)

/-- Embedding of `BlockchainStorage::store_block`: one atomic batch
writing the block, the height→hash entry, the timestamp entry and one
location record per transaction. -/
def storeBlock (hh : BlockHeader → Nat) (txH : Tx → Nat) (st : Store) (b : Blk) : Store :=
  let blockHash := hh b.header
  { blocks := insertA st.blocks blockHash b
    heightIdx := insertA st.heightIdx b.header.height blockHash
    txIdx := insertTxLocs txH blockHash st.txIdx b.transactions 0
    tsIdx := insertA st.tsIdx (b.header.timestamp, b.header.height) blockHash }

/-- A store produced exclusively by `store_block` calls, in order. -/
def storeAll (hh : BlockHeader → Nat) (txH : Tx → Nat) (bs : List Blk) : Store :=
  bs.foldl (storeBlock hh txH) Store.empty

/-- Embedding of `BlockchainStorage::get_block` (decode errors cannot
arise in the model, so the `Result` layer is dropped). -/
def getBlock (st : Store) (hash : Nat) : Option Blk :=
  lookupA st.blocks hash

/-- Embedding of `BlockchainStorage::get_block_by_height`. -/
def getBlockByHeight (st : Store) (height : Nat) : Option Blk :=
  match lookupA st.heightIdx height with
  | some hash => getBlock st hash
  | none => none

/-- Embedding of `BlockchainStorage::get_block_hash_by_height`:
`NotFound` when the height has no entry. -/
def getBlockHashByHeight (st : Store) (height : Nat) : Except StoreErr Nat :=
  match lookupA st.heightIdx height with
  | some hash => .ok hash
  | none => .error .notFound

/-- Embedding of `BlockchainStorage::get_transaction`: read the
location record, read the containing block (a missing block is a
database-corruption error), and index into its transactions. -/
def getTransaction (st : Store) (txHash : Nat) : Except StoreErr (Option Tx) :=
  match lookupA st.txIdx txHash with
  | some (blockHash, index) =>
    match getBlock st blockHash with
    | some b =>
      if hidx : index < b.transactions.length then .ok (some (b.transactions.get ⟨index, hidx⟩))
      else .error .database
    | none => .error .notFound
  | none => .ok none

/-- The little-endian 8-byte encoding of a `u64` height key. -/
def leBytes (n : Nat) : List Nat :=
  [n % 256, n / 256 % 256, n / 256 ^ 2 % 256, n / 256 ^ 3 % 256,
   n / 256 ^ 4 % 256, n / 256 ^ 5 % 256, n / 256 ^ 6 % 256, n / 256 ^ 7 % 256]

/-- Lexicographic byte-order comparison (the RocksDB default key order). -/
def lexLtB : List Nat → List Nat → Bool
  | [], [] => false
  | [], _ :: _ => true
  | _ :: _, [] => false
  | a :: as, b :: bs => if a < b then true else if b < a then false else lexLtB as bs

/-- Embedding of `BlockchainStorage::get_latest_height`: the
`block_height` key under the end of the lexicographic byte order of
little-endian keys (RocksDB `IteratorMode::End`); 0 for an empty store. -/
def getLatestHeight (st : Store) : Nat :=
  match st.heightIdx with
  | [] => 0
  | (k, _) :: rest =>
    rest.foldl (fun acc p => if lexLtB (leBytes acc) (leBytes p.1) then p.1 else acc) k

/-- The height walk of `verify_integrity`:
`for height in (0..=latest_height).rev()`. -/
def checkHeights (st : Store) : List Nat → Except StoreErr Bool
  | [] => .ok true
  | h :: rest =>
    match getBlockHashByHeight st h with
    | .error e => .error e
    | .ok currentHash =>
      match getBlock st currentHash with
      | none => .error .database
      | some b =>
        if h > 0 then
          match getBlockHashByHeight st (h - 1) with
          | .error e => .error e
          | .ok expectedPrev =>
            if b.header.prevHash ≠ expectedPrev then .ok false else checkHeights st rest
        else
          if b.header.prevHash ≠ 0 then .ok false else checkHeights st rest

/-- Embedding of `BlockchainStorage::verify_integrity`: latest height 0
is treated as the empty store; otherwise walk the heights from the
latest down to 0, checking block presence and `prev_hash` links
(`prev_hash` of the genesis block must be the all-zero hash, i.e. 0). -/
def verifyIntegrity (st : Store) : Except StoreErr Bool :=
  let latest := getLatestHeight st
  if latest = 0 then .ok true
  else checkHeights st ((List.range (latest + 1)).reverse)

/-! ## Transaction pool (src/transaction/pool.rs)

`Transaction::hash` is the parameter `txH`, signature validity the
parameter `sigOk` (see `Tx.verifyOk`).  `Instant::now()` readings are
supplied by the caller as a `now : Nat` argument.  The
`std::mem::size_of` constants that enter the memory accounting are
fixed at their 64-bit-target values; no theorem depends on the exact
numbers, only on the explicit overhead terms the code adds around
them. -/

/-- Value of `std::mem::size_of::<PooledTransaction>()` on a 64-bit
target (Transaction 184 + Instant 16 + bool 1 + usize 8, padded). -/
def szPooledTransaction : Nat := 216

/-- Value of `std::mem::size_of::<TransactionWithFee>()` on a 64-bit
target (hash 32 + fee 8 + fee_per_byte 8 + Instant 16). -/
def szTransactionWithFee : Nat := 64

/-- Embedding of `PooledTransaction`. -/
structure PooledTx where
  tx : Tx
  addedTime : Nat
  isValid : Bool
  size : Nat
  deriving DecidableEq, Repr

/-- Embedding of `TransactionWithFee` (the fee-index entry). -/
structure TxWithFee where
  txHash : Nat
  fee : Nat
  feePerByte : Nat
  timestamp : Nat
  deriving DecidableEq, Repr

/-- Embedding of `TransactionPoolConfig`. -/
structure PoolConfig where
  maxSize : Nat
  expiryTime : Nat
  maxMemory : Nat
  minFeePerByte : Nat
  replacementFeeBump : Nat
  deriving DecidableEq, Repr

/-- `TransactionPoolConfig::default()`. -/
def PoolConfig.default : PoolConfig :=
  { maxSize := 5000, expiryTime := 3600, maxMemory := 32 * 1024 * 1024,
    minFeePerByte := 1, replacementFeeBump := 10 }

/-- Embedding of `TransactionPool`: primary index `txs`, fee index
`by_fee` (a plain vector, never pruned by `remove_transaction`),
per-sender index `by_address` (sender → set of tx hashes), and the
running memory estimate. -/
structure Pool where
  config : PoolConfig
  txs : List (Nat × PooledTx)
  byFee : List TxWithFee
  byAddress : List (Nat × List Nat)
  memoryUsage : Nat
  deriving DecidableEq, Repr

/-- `TransactionPool::with_config`. -/
def Pool.withConfig (c : PoolConfig) : Pool :=
  { config := c, txs := [], byFee := [], byAddress := [], memoryUsage := 0 }

/-- Rejections issued by pool admission; each constructor stands for
one distinct `Error::Validation` message of the Rust code, carrying
the values interpolated into that message. -/
inductive Rejection where
  | verifyFailed
  | alreadyInPool
  | nonceAlreadyExists
  | invalidNonce (expected actual : Nat)
  | insufficientBalance (has needs : Nat)
  | feeTooLow (feePerByte minRequired : Nat)
  | poolFullFeeTooLow
  | memoryConstraints
  | replacementNotFound
  | replacementFeeTooLow (got need : Nat)
  | replacementRemoveFailed
  | replacementMemoryLimit
  deriving DecidableEq, Repr

/-- Embedding of `TransactionPool::get_transaction`. -/
def Pool.getTransaction (p : Pool) (hash : Nat) : Option Tx :=
  (lookupA p.txs hash).map (·.tx)

/-- Embedding of `TransactionPool::len`. -/
def Pool.len (p : Pool) : Nat := p.txs.length

/-- Embedding of `TransactionPool::find_transaction_by_sender_and_nonce`:
scan the sender's hash set and return the first pooled transaction
with the nonce. -/
def Pool.findTransactionBySenderAndNonce (p : Pool) (sender nonce : Nat) : Option Tx :=
  match lookupA p.byAddress sender with
  | some hashes =>
    hashes.findSome? fun h =>
      match lookupA p.txs h with
      | some pooled => if pooled.tx.nonce = nonce then some pooled.tx else none
      | none => none
  | none => none

/-- Embedding of `TransactionPool::get_lowest_fee_transaction`: the
minimum of the fee index by `fee_per_byte` (Rust `min_by_key` keeps
the first of equal minima), dereferenced through the primary index —
`none` when that minimal entry is stale. -/
def Pool.getLowestFeeTransaction (p : Pool) : Option Tx :=
  match p.byFee with
  | [] => none
  | e :: rest =>
    let m := rest.foldl (fun acc x => if x.feePerByte < acc.feePerByte then x else acc) e
    (lookupA p.txs m.txHash).map (·.tx)

/-- Embedding of `TransactionPool::remove_transaction`: drop the entry
from the primary index, subtract the estimated footprint (transaction
size, `PooledTransaction` box, hash-map entry, fee-index entry and
sender-index share) with saturating subtraction, and update the
per-sender index; the fee index keeps a stale entry by design. -/
def Pool.removeTransaction (p : Pool) (hash : Nat) : Bool × Pool :=
  match lookupA p.txs hash with
  | none => (false, p)
  | some pooled =>
    let p1 : Pool := { p with txs := eraseA p.txs hash }
    let tx := pooled.tx
    let txSize := tx.estimateSize
    let hashMapEntrySize := 32 + 8 + 32
    let senderEntrySize :=
      match lookupA p1.byAddress tx.sender with
      | some s => if s.length > 1 then 32 + 16 else 32 + 48 + 32 + 48
      | none => 32 + 48 + 32 + 48
    let mem := satSub p1.memoryUsage
      (txSize + szPooledTransaction + hashMapEntrySize + szTransactionWithFee + senderEntrySize)
    let byAddr :=
      match lookupA p1.byAddress tx.sender with
      | some s =>
        let s2 := s.erase hash
        if s2.isEmpty then eraseA p1.byAddress tx.sender
        else insertA p1.byAddress tx.sender s2
      | none => p1.byAddress
    (true, { p1 with memoryUsage := mem, byAddress := byAddr })

/-- Stable insertion used by `sortByStable`: the new element goes after
every element it is not strictly before. -/
def insertStable {α : Type} (lt : α → α → Bool) (x : α) : List α → List α
  | [] => [x]
  | y :: rest => if lt x y then x :: y :: rest else y :: insertStable lt x rest

/-- Stable sort by a strict-before test, modelling Rust's stable
`slice::sort_by`. -/
def sortByStable {α : Type} (lt : α → α → Bool) (l : List α) : List α :=
  l.foldl (fun acc x => insertStable lt x acc) []

/-- The comparator of `remove_lowest_priority_transactions`:
`fee_per_byte` ascending, ties broken by newer (larger) timestamp
first. -/
def evictionBefore (a b : TxWithFee) : Bool :=
  a.feePerByte < b.feePerByte || (a.feePerByte == b.feePerByte && b.timestamp < a.timestamp)

/-- The fee-index rebuild of `remove_lowest_priority_transactions`,
run when `by_fee.len() != txs.len()`. -/
def Pool.rebuildByFee (p : Pool) : Pool :=
  { p with byFee := p.txs.map fun e =>
      { txHash := e.1, fee := e.2.tx.fee,
        feePerByte := if e.2.tx.estimateSize > 0 then e.2.tx.fee / e.2.tx.estimateSize else e.2.tx.fee,
        timestamp := e.2.addedTime } }

/-- Embedding of `TransactionPool::remove_lowest_priority_transactions`:
rebuild the fee index if it is out of sync, sort it by
`evictionBefore`, remove the first `count` hashes, and force the
removal of one arbitrary (first-iterated) transaction when nothing
was removed but the pool is nonempty. -/
def Pool.removeLowestPriorityTransactions (p : Pool) (count : Nat) : Nat × Pool :=
  if p.txs.isEmpty || count = 0 then (0, p)
  else
    let p1 := if p.byFee.length ≠ p.txs.length then p.rebuildByFee else p
    let feeEntries := sortByStable evictionBefore p1.byFee
    if feeEntries.isEmpty && !p1.txs.isEmpty then
      match p1.txs with
      | [] => (0, p1)
      | (h, _) :: _ =>
        let (ok, p2) := p1.removeTransaction h
        if ok then (1, p2) else (0, p2)
    else
      let toRemove := (feeEntries.take count).map (·.txHash)
      let (removed, p2) := toRemove.foldl
        (fun acc h =>
          let (ok, q) := acc.2.removeTransaction h
          (if ok then acc.1 + 1 else acc.1, q))
        ((0 : Nat), p1)
      if removed = 0 && !p2.txs.isEmpty then
        match p2.txs with
        | [] => (removed, p2)
        | (h, _) :: _ =>
          let (ok, p3) := p2.removeTransaction h
          if ok then (1, p3) else (0, p3)
      else (removed, p2)

/-- Embedding of `TransactionPool::optimize_memory`: no-op at or below
75% of `max_memory`; otherwise free down towards 60%, removing at
least one transaction.  (When `memory_usage / txs.len()` is zero the
Rust code divides by zero and panics; the `Nat` division of the model
yields a removal count of 1 there, a path no theorem relies on.) -/
def Pool.optimizeMemory (p : Pool) : Nat × Pool :=
  if p.memoryUsage ≤ p.config.maxMemory * 3 / 4 then (0, p)
  else
    let target := p.config.maxMemory * 6 / 10
    let memoryToFree := satSub p.memoryUsage target
    if memoryToFree = 0 then (0, p)
    else
      let txCountToRemove :=
        if p.txs.length > 0 then
          let avgTxSize := if p.txs.isEmpty then 200 else p.memoryUsage / p.txs.length
          max (memoryToFree / avgTxSize) 1
        else 0
      p.removeLowestPriorityTransactions txCountToRemove

/-- The `by_address.entry(sender).or_insert_with(HashSet::new).insert(h)`
step of admission. -/
def addToSenderIndex (byAddr : List (Nat × List Nat)) (sender h : Nat) : List (Nat × List Nat) :=
  match lookupA byAddr sender with
  | some s => insertA byAddr sender (if s.contains h then s else s ++ [h])
  | none => byAddr ++ [(sender, [h])]

/-- Embedding of `TransactionPool::process_replacement_transaction`:
enforce the fee bump `existing_fee + existing_fee * bump / 100`
(saturating), atomically remove the displaced transaction, account
`tx_size` of extra memory, optimize if over the hard cap, and insert
the replacement. -/
def Pool.processReplacementTransaction (txH : Tx → Nat) (p : Pool) (newTx : Tx)
    (existingHash : Nat) (now : Nat) : Except Rejection Nat × Pool :=
  match lookupA p.txs existingHash with
  | none => (.error .replacementNotFound, p)
  | some existingPooled =>
    let existingFee := existingPooled.tx.fee
    let minFee := satAdd existingFee (checkedMulOrMax existingFee p.config.replacementFeeBump / 100)
    if newTx.fee < minFee then (.error (.replacementFeeTooLow newTx.fee minFee), p)
    else
      let rp := p.removeTransaction existingHash
      if !rp.1 then (.error .replacementRemoveFailed, rp.2)
      else
        let p1 := rp.2
        let newHash := txH newTx
        let txSize := newTx.estimateSize
        let feePerByte := if txSize > 0 then newTx.fee / txSize else newTx.fee
        let pooled : PooledTx := { tx := newTx, addedTime := now, isValid := true, size := txSize }
        let txWithFee : TxWithFee :=
          { txHash := newHash, fee := newTx.fee, feePerByte := feePerByte, timestamp := now }
        let p2 : Pool := { p1 with memoryUsage := p1.memoryUsage + txSize }
        let finish : Pool → Except Rejection Nat × Pool := fun q =>
          (.ok newHash,
           { q with txs := insertA q.txs newHash pooled,
                    byFee := q.byFee ++ [txWithFee],
                    byAddress := addToSenderIndex q.byAddress newTx.sender newHash })
        if p2.memoryUsage > p2.config.maxMemory then
          let p3 := (p2.optimizeMemory).2
          if p3.memoryUsage > p3.config.maxMemory then
            (.error .replacementMemoryLimit, { p3 with memoryUsage := p3.memoryUsage - txSize })
          else finish p3
        else finish p2

/-- Embedding of `TransactionPool::add_transaction_with_replacement`:
verify, reject duplicates, dispatch same-(sender, nonce) submissions
to the replacement path, validate nonce/balance/fee floor, apply the
capacity rule, account memory (optimizing when over the thresholds),
and insert into the three indices. -/
def Pool.addTransactionWithReplacement (txH : Tx → Nat) (sigOk : Tx → Bool)
    (p : Pool) (tx : Tx) (st : Nat → Nat × Nat) (allowReplacement : Bool)
    (now : Nat) : Except Rejection Nat × Pool :=
  if !Tx.verifyOk sigOk tx then (.error .verifyFailed, p)
  else
    let txHash := txH tx
    if containsKeyA p.txs txHash then (.error .alreadyInPool, p)
    else
      let senderState := st tx.sender
      match p.findTransactionBySenderAndNonce tx.sender tx.nonce with
      | some existingTx =>
        if allowReplacement then p.processReplacementTransaction txH tx (txH existingTx) now
        else (.error .nonceAlreadyExists, p)
      | none =>
        if tx.nonce ≠ senderState.2 then (.error (.invalidNonce senderState.2 tx.nonce), p)
        else
          let totalCost := satAdd tx.amount tx.fee
          if senderState.1 < totalCost then
            (.error (.insufficientBalance senderState.1 totalCost), p)
          else
            let txSize := tx.estimateSize
            let feePerByte := if txSize > 0 then tx.fee / txSize else tx.fee
            if feePerByte < p.config.minFeePerByte then
              (.error (.feeTooLow feePerByte p.config.minFeePerByte), p)
            else
              let capResult : Except Rejection Pool :=
                if p.txs.length ≥ p.config.maxSize then
                  match p.getLowestFeeTransaction with
                  | some lowest =>
                    let lowestSize := lowest.estimateSize
                    let lowestFpb := if lowestSize > 0 then lowest.fee / lowestSize else lowest.fee
                    if feePerByte ≤ lowestFpb then .error .poolFullFeeTooLow
                    else .ok (p.removeTransaction (txH lowest)).2
                  | none => .ok p
                else .ok p
              match capResult with
              | .error e => (.error e, p)
              | .ok p1 =>
                let pooled : PooledTx := { tx := tx, addedTime := now, isValid := true, size := txSize }
                let txWithFee : TxWithFee :=
                  { txHash := txHash, fee := tx.fee, feePerByte := feePerByte, timestamp := now }
                let delta := txSize + szPooledTransaction + szTransactionWithFee
                let mem1 := p1.memoryUsage + delta
                let projected := mem1 + delta
                let p2 : Pool := { p1 with memoryUsage := mem1 }
                let finish : Pool → Except Rejection Nat × Pool := fun q =>
                  (.ok txHash,
                   { q with txs := insertA q.txs txHash pooled,
                            byFee := q.byFee ++ [txWithFee],
                            byAddress := addToSenderIndex q.byAddress tx.sender txHash })
                if mem1 > p2.config.maxMemory * 3 / 4 || projected > p2.config.maxMemory then
                  let op := p2.optimizeMemory
                  let p3 := op.2
                  if op.1 = 0 && projected > p3.config.maxMemory then
                    (.error .memoryConstraints, { p3 with memoryUsage := p3.memoryUsage - delta })
                  else if p3.memoryUsage > p3.config.maxMemory then
                    (.error .memoryConstraints, { p3 with memoryUsage := p3.memoryUsage - delta })
                  else finish p3
                else finish p2

/-- Embedding of `TransactionPool::add_transaction` (the
no-replacement wrapper). -/
def Pool.addTransaction (txH : Tx → Nat) (sigOk : Tx → Bool)
    (p : Pool) (tx : Tx) (st : Nat → Nat × Nat) (now : Nat) : Except Rejection Nat × Pool :=
  Pool.addTransactionWithReplacement txH sigOk p tx st false now

/-! ### Selection (`TransactionPool::select_transactions`)

`sender_states` is seeded from the blockchain state for every sender
it is ever read at, so it is modelled as the total function
`ss : sender → (balance, nonce)` whose initial value is the state
view.  The candidate scan keeps the iteration (list) order of `txs`,
which the stable `sort_by` then refines — so taking element 0 of the
sorted vector is taking the first comparator-minimal candidate, which
is what `pickFirstMin` computes. -/

/-- One round's candidate list: not yet processed, marked valid,
nonce equal to the projected sender nonce, projected balance
sufficient for `amount.saturating_add(fee)`. -/
def candidates (txs : List (Nat × PooledTx)) (processed : List Nat)
    (ss : Nat → Nat × Nat) : List (Nat × PooledTx) :=
  txs.filter fun e =>
    !processed.contains e.1 && e.2.isValid &&
    e.2.tx.nonce == (ss e.2.tx.sender).2 &&
    !decide ((ss e.2.tx.sender).1 < satAdd e.2.tx.amount e.2.tx.fee)

/-- The strict "sorts before" relation of the selection comparator:
higher fee-per-byte first, ties by older (smaller) `added_time`. -/
def Better (a b : Nat × PooledTx) : Prop :=
  calculateFeePerByte b.2.tx < calculateFeePerByte a.2.tx ∨
  (calculateFeePerByte a.2.tx = calculateFeePerByte b.2.tx ∧ a.2.addedTime < b.2.addedTime)

instance (a b : Nat × PooledTx) : Decidable (Better a b) := by
  unfold Better
  infer_instance

/-- The first comparator-minimal element of the candidate list: the
element found at index 0 after the stable `sort_by` of
`select_transactions`. -/
def pickFirstMin (l : List (Nat × PooledTx)) : Option (Nat × PooledTx) :=
  l.foldl
    (fun acc x =>
      match acc with
      | none => some x
      | some m => if Better x m then some x else some m)
    none

/-- The projected-state update after a pick:
`balance -= amount + fee; nonce += 1` (u64 semantics). -/
def updateSenderState (ss : Nat → Nat × Nat) (t : Tx) : Nat → Nat × Nat :=
  fun s =>
    if s = t.sender then
      (wrapSub (ss t.sender).1 (wrapAdd t.amount t.fee), wrapAdd (ss t.sender).2 1)
    else ss s

/-- The `for _ in 0..max_count` loop of `select_transactions`. -/
def selLoop (txs : List (Nat × PooledTx)) :
    Nat → (Nat → Nat × Nat) → List Nat → List Tx
  | 0, _, _ => []
  | fuel + 1, ss, processed =>
    match pickFirstMin (candidates txs processed ss) with
    | none => []
    | some e => e.2.tx :: selLoop txs fuel (updateSenderState ss e.2.tx) (e.1 :: processed)

/-- Embedding of `TransactionPool::select_transactions`. -/
def Pool.selectTransactions (p : Pool) (maxCount : Nat) (st : Nat → Nat × Nat) : List Tx :=
  selLoop p.txs maxCount st []

/-- Modelled from the spec (P3/P4): the pick is a candidate whose
fee-per-byte is highest among all candidates of the round, and among
candidates of equal fee-per-byte its `added_time` is least (earlier
arrivals first). -/
def IsBestPick (cands : List (Nat × PooledTx)) (c : Nat × PooledTx) : Prop :=
  c ∈ cands ∧ ∀ x ∈ cands,
    calculateFeePerByte x.2.tx ≤ calculateFeePerByte c.2.tx ∧
    (calculateFeePerByte x.2.tx = calculateFeePerByte c.2.tx →
      c.2.addedTime ≤ x.2.addedTime)

/-- Modelled from the spec (P3/P4 combined): the output list is
obtained by repeatedly taking a best (highest fee-per-byte, earliest
added-time among ties) candidate among the transactions still valid
under the projected sender states, updating the projection, until the
count is exhausted or no candidate remains. -/
inductive Greedy (txs : List (Nat × PooledTx)) :
    (Nat → Nat × Nat) → List Nat → Nat → List Tx → Prop where
  | stop (ss : Nat → Nat × Nat) (pr : List Nat) : Greedy txs ss pr 0 []
  | exhausted (ss : Nat → Nat × Nat) (pr : List Nat) (n : Nat) :
      candidates txs pr ss = [] → Greedy txs ss pr (n + 1) []
  | pick (ss : Nat → Nat × Nat) (pr : List Nat) (n : Nat)
      (e : Nat × PooledTx) (rest : List Tx) :
      IsBestPick (candidates txs pr ss) e →
      Greedy txs (updateSenderState ss e.2.tx) (e.1 :: pr) n rest →
      Greedy txs ss pr (n + 1) (e.2.tx :: rest)

instance {ε α : Type} [DecidableEq ε] [DecidableEq α] : DecidableEq (Except ε α) := fun a b =>
  match a, b with
  | .error e1, .error e2 => if h : e1 = e2 then isTrue (by rw [h]) else isFalse (by simp [h])
  | .error _, .ok _ => isFalse (by simp)
  | .ok _, .error _ => isFalse (by simp)
  | .ok a1, .ok a2 => if h : a1 = a2 then isTrue (by rw [h]) else isFalse (by simp [h])

/-! ## Concrete instantiations used by witnesses and counterexamples

The hash and signature parameters are instantiated with simple
executable functions; the fixtures below are small pools, states and
blocks on which the claims can be evaluated. -/

/-- A concrete stand-in for `Transaction::hash`, injective on the
fixtures used below. -/
def txHashC : Tx → Nat := fun tx =>
  tx.sender * 1000000 + tx.nonce * 1000 + tx.fee

/-- A concrete stand-in for Ed25519 signature validity: every
signature verifies. -/
def sigOkC : Tx → Bool := fun _ => true

/-- A concrete stand-in for `BlockHeader::hash`. -/
def headerHashC : BlockHeader → Nat := fun h => h.height * 100 + h.prevHash + 1

/-- A plain transfer transaction with empty data. -/
def mkTransfer (sender recipient amount fee nonce : Nat) : Tx :=
  { version := 1, sender := sender, recipient := recipient, amount := amount,
    fee := fee, nonce := nonce, data := [], signature := 0 }

/-- State fixture: every account holds balance 100000 at nonce 0. -/
def richState : Nat → Nat × Nat := fun _ => (100000, 0)

/-- Pool configuration fixture: large capacity and memory, no fee
floor, 10% replacement bump. -/
def cfgLoose : PoolConfig :=
  { maxSize := 100, expiryTime := 3600, maxMemory := 1000000000,
    minFeePerByte := 0, replacementFeeBump := 10 }

/-- Pool configuration fixture for the capacity bug: `max_size = 1`. -/
def cfgCap1 : PoolConfig :=
  { maxSize := 1, expiryTime := 3600, maxMemory := 1000000000,
    minFeePerByte := 0, replacementFeeBump := 10 }

/-- BState fixture: account 1 holds balance 1000 at nonce 0. -/
def bstateC : BState :=
  ⟨[(1, { balance := 1000, nonce := 0, code := none, storage := [] })]⟩

/-- Block fixture for C5: a valid transfer followed by one with a bad
nonce, so `apply_block` fails midway. -/
def blkPartial : Blk :=
  ⟨⟨1, 0, 0, 0, 1, 9, 0⟩, [mkTransfer 1 2 100 10 0, mkTransfer 1 2 100 10 99]⟩

/-- Genesis fixture with a NONZERO `prev_hash`, stored alone at
height 0 (C4). -/
def badGenesis : Blk := ⟨⟨1, 7, 0, 0, 0, 9, 0⟩, []⟩

/-- Default block, used only as the `getD` fallback. -/
def defaultBlk : Blk := ⟨⟨0, 0, 0, 0, 0, 0, 0⟩, []⟩

/-- The prev-hash link condition `verify_integrity` checks at height
`h` of the block list `bs` (stored in height order): the genesis
block's `prev_hash` is the all-zero hash, and every later block's
`prev_hash` is the header hash of the block one height below. -/
def linkOK (hh : BlockHeader → Nat) (bs : List Blk) (h : Nat) : Prop :=
  if h = 0 then (bs.getD 0 defaultBlk).header.prevHash = 0
  else (bs.getD h defaultBlk).header.prevHash = hh ((bs.getD (h - 1) defaultBlk).header)

instance (hh : BlockHeader → Nat) (bs : List Blk) (h : Nat) : Decidable (linkOK hh bs h) := by
  unfold linkOK
  infer_instance

/-- The claim's chain condition on the stored block sequence: every
height satisfies its link condition. -/
def ChainOK (hh : BlockHeader → Nat) (bs : List Blk) : Prop :=
  ∀ h, h < bs.length → linkOK hh bs h

instance (hh : BlockHeader → Nat) (bs : List Blk) : Decidable (ChainOK hh bs) := by
  unfold ChainOK
  exact Nat.decidableBallLT bs.length fun h _ => linkOK hh bs h

/-- Genesis fixture with zero `prev_hash`. -/
def genesisZ : Blk := ⟨⟨1, 0, 0, 0, 0, 9, 0⟩, []⟩

/-- A height-1 block correctly linked to `genesisZ`. -/
def blockOne : Blk := ⟨⟨1, headerHashC genesisZ.header, 0, 5, 1, 9, 0⟩, []⟩

/-- A height-1 block with a wrong `prev_hash`. -/
def blockOneBad : Blk := ⟨⟨1, 12345, 0, 5, 1, 9, 0⟩, []⟩

/-! ## Helper lemmas -/

theorem estimateSize_pos (tx : Tx) : 0 < tx.estimateSize := by
  unfold Tx.estimateSize
  omega

theorem lookupA_append_single {α β : Type} [DecidableEq α]
    (l : List (α × β)) (k a : α) (v : β) :
    lookupA (l ++ [(k, v)]) a =
      match lookupA l a with
      | some w => some w
      | none => if k = a then some v else none := by
  induction l with
  | nil => simp [lookupA]
  | cons hd tl ih =>
    obtain ⟨k2, v2⟩ := hd
    by_cases hk : k2 = a
    · simp [lookupA, hk]
    · simp [lookupA, hk, ih]

theorem view_getAccountState_fst (s : BState) (addr a : Nat) :
    ((s.getAccountState addr).1).view a = s.view a := by
  unfold BState.getAccountState
  cases hl : lookupA s.accounts addr with
  | some acct => simp
  | none =>
    simp only [BState.view]
    rw [lookupA_append_single]
    cases hla : lookupA s.accounts a with
    | some w => simp
    | none =>
      by_cases haddr : addr = a
      · subst haddr
        rw [if_pos rfl]
        simp [AccountState.new]
      · rw [if_neg haddr]

theorem getAccountState_snd (s : BState) (addr : Nat) :
    (((s.getAccountState addr).2).balance, ((s.getAccountState addr).2).nonce) = s.view addr := by
  unfold BState.getAccountState BState.view
  cases hl : lookupA s.accounts addr with
  | some acct => simp
  | none => simp [AccountState.new]

theorem applyTransaction_error_view (s : BState) (tx : Tx) (e : StateErr) (s2 : BState)
    (h : s.applyTransaction tx = (some e, s2)) : ∀ a, s2.view a = s.view a := by
  intro a
  unfold BState.applyTransaction at h
  rcases hgs : s.getAccountState tx.sender with ⟨s1, sender⟩
  rw [hgs] at h
  dsimp only at h
  have hs1 : s1 = (s.getAccountState tx.sender).1 := by rw [hgs]
  by_cases hn : tx.nonce ≠ sender.nonce
  · rw [if_pos hn] at h
    have hs2 : s2 = s1 := (Prod.mk.injEq _ _ _ _ ▸ h).2.symm
    rw [hs2, hs1, view_getAccountState_fst]
  · rw [if_neg hn] at h
    by_cases hb : sender.balance < satAdd tx.amount tx.fee
    · rw [if_pos hb] at h
      have hs2 : s2 = s1 := (Prod.mk.injEq _ _ _ _ ▸ h).2.symm
      rw [hs2, hs1, view_getAccountState_fst]
    · rw [if_neg hb] at h
      exact absurd (Prod.mk.injEq _ _ _ _ ▸ h).1 (by simp)

theorem applyTxList_error_prefix :
    ∀ (txs : List Tx) (s : BState) (e : StateErr) (s2 : BState),
      s.applyTxList txs = (some e, s2) →
      ∃ (k : Nat) (hk : k < txs.length),
        (s.applyTxList (txs.take k)).1 = none ∧
        ((s.applyTxList (txs.take k)).2.applyTransaction (txs.get ⟨k, hk⟩)).1 = some e ∧
        s2 = ((s.applyTxList (txs.take k)).2.applyTransaction (txs.get ⟨k, hk⟩)).2
  | [], s, e, s2 => by
    intro h
    simp [BState.applyTxList] at h
  | tx :: rest, s, e, s2 => by
    intro h
    unfold BState.applyTxList at h
    cases hap : s.applyTransaction tx with
    | mk err s3 =>
      rw [hap] at h
      cases err with
      | some e2 =>
        simp only [Prod.mk.injEq, Option.some.injEq] at h
        refine ⟨0, by simp, ?_, ?_, ?_⟩
        · simp [BState.applyTxList]
        · simp only [List.take_zero, BState.applyTxList, List.get]
          rw [hap, h.1]
        · simp only [List.take_zero, BState.applyTxList, List.get]
          rw [hap, h.2]
      | none =>
        obtain ⟨k, hk, h1, h2, h3⟩ := applyTxList_error_prefix rest s3 e s2 h
        have hk2 : k + 1 < (tx :: rest).length := by simpa using Nat.succ_lt_succ hk
        refine ⟨k + 1, hk2, ?_, ?_, ?_⟩
        · simp only [List.take_succ_cons, BState.applyTxList]
          rw [hap]
          exact h1
        · simp only [List.take_succ_cons, BState.applyTxList, List.get]
          rw [hap]
          exact h2
        · simp only [List.take_succ_cons, BState.applyTxList, List.get]
          rw [hap]
          exact h3

theorem addTransaction_reaches_feeTooLow (txH : Tx → Nat) (sigOk : Tx → Bool)
    (p : Pool) (tx : Tx) (st : Nat → Nat × Nat) (allow : Bool) (now : Nat)
    (hver : Tx.verifyOk sigOk tx = true)
    (hdup : containsKeyA p.txs (txH tx) = false)
    (hex : p.findTransactionBySenderAndNonce tx.sender tx.nonce = none)
    (hnonce : tx.nonce = (st tx.sender).2)
    (hbal : ¬ (st tx.sender).1 < satAdd tx.amount tx.fee)
    (hfee : tx.fee / tx.estimateSize < p.config.minFeePerByte) :
    Pool.addTransactionWithReplacement txH sigOk p tx st allow now =
      (.error (.feeTooLow (tx.fee / tx.estimateSize) p.config.minFeePerByte), p) := by
  unfold Pool.addTransactionWithReplacement
  rw [hver]
  simp only [Bool.not_true, Bool.false_eq_true, if_false]
  rw [hdup]
  simp only [Bool.false_eq_true, if_false]
  rw [hex]
  simp only []
  rw [if_neg (by simp [hnonce]), if_neg hbal,
    if_pos (estimateSize_pos tx), if_pos hfee]

theorem lookupA_mem_keys {α β : Type} [DecidableEq α] (l : List (α × β)) (a : α) (v : β)
    (h : lookupA l a = some v) : a ∈ l.map Prod.fst := by
  induction l with
  | nil => simp [lookupA] at h
  | cons hd tl ih =>
    obtain ⟨k, w⟩ := hd
    by_cases hk : k = a
    · simp [hk]
    · rw [lookupA, if_neg hk] at h
      simp [ih h]

theorem lookupA_eraseA_self {α β : Type} [DecidableEq α] (l : List (α × β)) (a : α)
    (h : (l.map Prod.fst).Nodup) : lookupA (eraseA l a) a = none := by
  induction l with
  | nil => simp [eraseA, lookupA]
  | cons hd tl ih =>
    obtain ⟨k, v⟩ := hd
    simp only [List.map_cons, List.nodup_cons] at h
    by_cases hk : k = a
    · subst hk
      rw [eraseA, if_pos rfl]
      cases hl : lookupA tl k with
      | none => rfl
      | some w => exact absurd (lookupA_mem_keys tl k w hl) h.1
    · rw [eraseA, if_neg hk, lookupA, if_neg hk]
      exact ih h.2

theorem containsKeyA_false_lookup {α β : Type} [DecidableEq α] (l : List (α × β)) (a : α)
    (h : containsKeyA l a = false) : lookupA l a = none := by
  unfold containsKeyA at h
  exact Option.not_isSome_iff_eq_none.mp (by simp [h])

theorem insertA_length_fresh {α β : Type} [DecidableEq α] (l : List (α × β)) (a : α) (b : β)
    (h : lookupA l a = none) : (insertA l a b).length = l.length + 1 := by
  induction l with
  | nil => simp [insertA]
  | cons hd tl ih =>
    obtain ⟨k, v⟩ := hd
    by_cases hk : k = a
    · rw [lookupA, if_pos hk] at h
      exact absurd h (by simp)
    · rw [lookupA, if_neg hk] at h
      simp [insertA, hk, ih h]

theorem eraseA_insertA_fresh {α β : Type} [DecidableEq α] (l : List (α × β)) (a : α) (b : β)
    (h : lookupA l a = none) : eraseA (insertA l a b) a = l := by
  induction l with
  | nil => simp [insertA, eraseA]
  | cons hd tl ih =>
    obtain ⟨k, v⟩ := hd
    by_cases hk : k = a
    · rw [lookupA, if_pos hk] at h
      exact absurd h (by simp)
    · rw [lookupA, if_neg hk] at h
      rw [insertA, if_neg hk, eraseA, if_neg hk, ih h]

theorem insertA_self_of_lookup {α β : Type} [DecidableEq α] (l : List (α × β)) (a : α) (b : β)
    (h : lookupA l a = some b) : insertA l a b = l := by
  induction l with
  | nil => simp [lookupA] at h
  | cons hd tl ih =>
    obtain ⟨k, v⟩ := hd
    by_cases hk : k = a
    · rw [lookupA, if_pos hk] at h
      rw [insertA, if_pos hk]
      simp at h
      rw [h]
    · rw [lookupA, if_neg hk] at h
      rw [insertA, if_neg hk, ih h]

theorem insertA_insertA {α β : Type} [DecidableEq α] (l : List (α × β)) (a : α) (b1 b2 : β) :
    insertA (insertA l a b1) a b2 = insertA l a b2 := by
  induction l with
  | nil => simp [insertA]
  | cons hd tl ih =>
    obtain ⟨k, v⟩ := hd
    by_cases hk : k = a
    · simp [insertA, hk]
    · simp [insertA, hk, ih]

theorem eraseA_append_single {α β : Type} [DecidableEq α] (l : List (α × β)) (k : α) (v : β)
    (h : lookupA l k = none) : eraseA (l ++ [(k, v)]) k = l := by
  induction l with
  | nil => simp [eraseA]
  | cons hd tl ih =>
    obtain ⟨k2, v2⟩ := hd
    by_cases hk : k2 = k
    · rw [lookupA, if_pos hk] at h
      exact absurd h (by simp)
    · rw [lookupA, if_neg hk] at h
      simp only [List.cons_append, eraseA, if_neg hk]
      rw [show tl.append [(k, v)] = tl ++ [(k, v)] from rfl, ih h]

/-! ## Claim C9: Merkle root equals the reference definition -/

/-- C9: for every sequence of leaf hashes (and every pair-hash
function), `compute_merkle_root` equals the reference level-by-level
definition: all-zero root for the empty sequence, the leaf itself for
a singleton, otherwise odd levels duplicate their last hash and each
parent hashes a consecutive pair, iterated to a single root. -/
theorem computeMerkleRoot_eq_specMerkleRoot (hp : Nat → Nat → Nat) (leaves : List Nat) :
    computeMerkleRoot hp leaves = specMerkleRoot hp leaves := by
  cases leaves with
  | nil => simp [computeMerkleRoot, specMerkleRoot]
  | cons a rest =>
    unfold computeMerkleRoot
    rw [if_neg (by simp)]
    exact merkleLoop_eq_spec hp (a :: rest) (by simp)

/-! ## Claim C2: estimate_size and the fee-per-byte pricing basis -/

/-- C2 counterexample: `estimate_size` of a transaction with empty
data returns 153, not the 161 the claim states (the Rust sum
1 + 32 + 32 + 8 + 8 + 8 + 64 has no length-prefix term, and the
source's own test asserts 153). -/
theorem estimateSize_ne_161_counterexample :
    (mkTransfer 1 2 100 10 0).estimateSize = 153 ∧
    (mkTransfer 1 2 100 10 0).estimateSize ≠
      161 + (mkTransfer 1 2 100 10 0).data.length := by
  constructor
  · rfl
  · decide

/-- C2 (amended): `estimate_size(tx)` returns `153 + len(tx.data)`,
and this value is the pricing basis of the mempool fee policy: the
pool's fee-per-byte is the truncating division `fee / estimate_size`,
and the FeeTooLow rejection of admission reports exactly that
quotient against `min_fee_per_byte`. -/
theorem estimateSize_pricing_basis :
    (∀ tx : Tx, tx.estimateSize = 153 + tx.data.length ∧
      calculateFeePerByte tx = tx.fee / (153 + tx.data.length)) ∧
    (∀ (txH : Tx → Nat) (sigOk : Tx → Bool) (p : Pool) (tx : Tx)
        (st : Nat → Nat × Nat) (allow : Bool) (now : Nat),
      Tx.verifyOk sigOk tx = true →
      containsKeyA p.txs (txH tx) = false →
      p.findTransactionBySenderAndNonce tx.sender tx.nonce = none →
      tx.nonce = (st tx.sender).2 →
      ¬ (st tx.sender).1 < satAdd tx.amount tx.fee →
      tx.fee / tx.estimateSize < p.config.minFeePerByte →
      Pool.addTransactionWithReplacement txH sigOk p tx st allow now =
        (.error (.feeTooLow (tx.fee / tx.estimateSize) p.config.minFeePerByte), p)) := by
  constructor
  · intro tx
    have hsz : tx.estimateSize = 153 + tx.data.length := by
      unfold Tx.estimateSize
      omega
    refine ⟨hsz, ?_⟩
    unfold calculateFeePerByte
    rw [if_neg (by omega), hsz]
  · exact addTransaction_reaches_feeTooLow

/-- C2 witness: the pricing-basis bullet evaluated on a concrete
low-fee transaction against the default configuration. -/
theorem estimateSize_pricing_basis_witness :
    Pool.addTransactionWithReplacement txHashC sigOkC
        (Pool.withConfig PoolConfig.default) (mkTransfer 1 2 100 10 0) richState false 3 =
      (.error (.feeTooLow ((mkTransfer 1 2 100 10 0).fee / (mkTransfer 1 2 100 10 0).estimateSize) 1), Pool.withConfig PoolConfig.default) :=
  estimateSize_pricing_basis.2 txHashC sigOkC (Pool.withConfig PoolConfig.default)
    (mkTransfer 1 2 100 10 0) richState false 3
    (by decide) (by decide) (by decide) (by decide) (by decide) (by decide)

/-! ## Claim C5: state is unchanged on failing application -/

/-- C5 counterexample: `apply_block` on a block whose second
transaction has a bad nonce returns an error, yet the state is NOT
its pre-call value — the first transaction stays applied (the core
performs no rollback, as §4.4 itself states). -/
theorem applyBlock_mutates_on_error_counterexample :
    (bstateC.applyBlock blkPartial).1.isSome = true ∧
    (bstateC.applyBlock blkPartial).2 ≠ bstateC := by
  decide

/-- C5 (amended): when `apply_transaction` returns an error no
account's balance or nonce changes (only an implicit zero account may
be materialized for the sender); when `apply_block` returns an error
the resulting state is the one reached by applying the longest
successfully-applied prefix of the block's transactions — prior
transactions are not rolled back. -/
theorem state_on_failing_apply :
    (∀ (s : BState) (tx : Tx) (e : StateErr) (s2 : BState),
        s.applyTransaction tx = (some e, s2) → ∀ a, s2.view a = s.view a) ∧
    (∀ (s : BState) (b : Blk) (e : StateErr) (s2 : BState),
        s.applyBlock b = (some e, s2) →
        ∃ (k : Nat) (hk : k < b.transactions.length),
          (s.applyTxList (b.transactions.take k)).1 = none ∧
          ((s.applyTxList (b.transactions.take k)).2.applyTransaction
              (b.transactions.get ⟨k, hk⟩)).1 = some e ∧
          s2 = ((s.applyTxList (b.transactions.take k)).2.applyTransaction
              (b.transactions.get ⟨k, hk⟩)).2) :=
  ⟨applyTransaction_error_view,
   fun s b e s2 h => applyTxList_error_prefix b.transactions s e s2 h⟩

/-- C5 witness: both bullets at concrete inputs — a bad-nonce
transfer leaves the view of account 1 unchanged, and the failing
block application of the counterexample block is pinpointed at its
failing index. -/
theorem state_on_failing_apply_witness :
    ((bstateC.applyTransaction (mkTransfer 1 2 100 10 99)).2.view 1 = bstateC.view 1) ∧
    (∃ (k : Nat) (hk : k < blkPartial.transactions.length),
      (bstateC.applyTxList (blkPartial.transactions.take k)).1 = none ∧
      ((bstateC.applyTxList (blkPartial.transactions.take k)).2.applyTransaction
          (blkPartial.transactions.get ⟨k, hk⟩)).1 = some (.invalidNonce 1 99) ∧
      (bstateC.applyBlock blkPartial).2 =
        ((bstateC.applyTxList (blkPartial.transactions.take k)).2.applyTransaction
          (blkPartial.transactions.get ⟨k, hk⟩)).2) :=
  ⟨state_on_failing_apply.1 bstateC (mkTransfer 1 2 100 10 99) (.invalidNonce 0 99)
      (bstateC.applyTransaction (mkTransfer 1 2 100 10 99)).2 (by decide) 1,
   state_on_failing_apply.2 bstateC blkPartial (.invalidNonce 1 99)
      (bstateC.applyBlock blkPartial).2 (by decide)⟩

/-! ## Claim C10: integer fee-per-byte and FeeTooLow under defaults -/

/-- C10: mempool admission computes fee-per-byte as the truncating
integer division `fee / estimate_size()`; hence a transaction with
`fee < estimate_size()` has computed fee-per-byte 0, and under the
default configuration (`min_fee_per_byte = 1`) every such
transaction that reaches the fee gate is rejected FeeTooLow with
reported fee-per-byte 0, regardless of its absolute fee.
(The floating-point `Transaction::fee_per_byte` contrast is not part
of the formal statement.) -/
theorem integer_feePerByte_rejection :
    (∀ tx : Tx, tx.fee < tx.estimateSize → calculateFeePerByte tx = 0) ∧
    (∀ (txH : Tx → Nat) (sigOk : Tx → Bool) (p : Pool) (tx : Tx)
        (st : Nat → Nat × Nat) (allow : Bool) (now : Nat),
      p.config.minFeePerByte = 1 →
      Tx.verifyOk sigOk tx = true →
      containsKeyA p.txs (txH tx) = false →
      p.findTransactionBySenderAndNonce tx.sender tx.nonce = none →
      tx.nonce = (st tx.sender).2 →
      ¬ (st tx.sender).1 < satAdd tx.amount tx.fee →
      tx.fee < tx.estimateSize →
      Pool.addTransactionWithReplacement txH sigOk p tx st allow now =
        (.error (.feeTooLow 0 1), p)) := by
  constructor
  · intro tx hlt
    unfold calculateFeePerByte
    rw [if_neg (by have := estimateSize_pos tx; omega)]
    exact Nat.div_eq_of_lt hlt
  · intro txH sigOk p tx st allow now hdef hver hdup hex hnonce hbal hlt
    have hz : tx.fee / tx.estimateSize = 0 := Nat.div_eq_of_lt hlt
    have := addTransaction_reaches_feeTooLow txH sigOk p tx st allow now
      hver hdup hex hnonce hbal (by rw [hz, hdef]; exact Nat.zero_lt_one)
    rw [this, hz, hdef]

/-- C10 witness: a transaction with fee 100 (below its 153-byte size)
is rejected FeeTooLow with fee-per-byte 0 under the default
configuration. -/
theorem integer_feePerByte_rejection_witness :
    Pool.addTransactionWithReplacement txHashC sigOkC
        (Pool.withConfig PoolConfig.default) (mkTransfer 1 2 5 100 0) richState false 4 =
      (.error (.feeTooLow 0 1), Pool.withConfig PoolConfig.default) :=
  integer_feePerByte_rejection.2 txHashC sigOkC (Pool.withConfig PoolConfig.default)
    (mkTransfer 1 2 5 100 0) richState false 4
    (by decide) (by decide) (by decide) (by decide) (by decide) (by decide) (by decide)

/-! ## Claim C3: replacement fee threshold -/

/-- The pool holding one transaction from sender 1 at nonce 0 with
fee 55 (the C3 / S2 scenario). -/
def poolFee55 : Pool :=
  (Pool.addTransaction txHashC sigOkC (Pool.withConfig cfgLoose)
    (mkTransfer 1 2 100 55 0) richState 0).2

/-- C3 counterexample: with `replacement_fee_bump = 10` and an
existing fee of 55, the claim's ceiling threshold is
`ceil(55 * 110 / 100) = 61`, so it predicts ReplacementFeeTooLow for
a fee-60 replacement; the code's floor threshold is
`55 + 55 * 10 / 100 = 60` and the fee-60 replacement SUCCEEDS,
removing the old transaction and inserting the new one. -/
theorem replacement_ceiling_counterexample :
    ((mkTransfer 1 2 100 60 0).fee * 100 <
      55 * (100 + cfgLoose.replacementFeeBump)) ∧
    (Pool.addTransactionWithReplacement txHashC sigOkC poolFee55
        (mkTransfer 1 2 100 60 0) richState true 1).1 =
      .ok (txHashC (mkTransfer 1 2 100 60 0)) ∧
    (Pool.addTransactionWithReplacement txHashC sigOkC poolFee55
        (mkTransfer 1 2 100 60 0) richState true 1).2.getTransaction
        (txHashC (mkTransfer 1 2 100 55 0)) = none ∧
    (Pool.addTransactionWithReplacement txHashC sigOkC poolFee55
        (mkTransfer 1 2 100 60 0) richState true 1).2.getTransaction
        (txHashC (mkTransfer 1 2 100 60 0)) = some (mkTransfer 1 2 100 60 0) := by
  decide

/-- C3 (amended): for an existing pooled transaction and a
same-(sender, nonce) replacement submitted with
`allow_replacement = true`, the gate is the FLOOR formula
`min_required = existing.fee + existing.fee * replacement_fee_bump / 100`
(saturating): below it the submission fails with
ReplacementFeeTooLow{actual, required}; at or above it (and with the
memory cap not exceeded) the replacement succeeds — the old
transaction is removed and the new one inserted. -/
theorem replacement_floor_threshold (txH : Tx → Nat) (sigOk : Tx → Bool)
    (p : Pool) (tx exTx : Tx) (exP : PooledTx) (st : Nat → Nat × Nat) (now : Nat)
    (hver : Tx.verifyOk sigOk tx = true)
    (hdup : containsKeyA p.txs (txH tx) = false)
    (hex : p.findTransactionBySenderAndNonce tx.sender tx.nonce = some exTx)
    (hlk : lookupA p.txs (txH exTx) = some exP)
    (hexP : exP.tx = exTx)
    (hneq : txH exTx ≠ txH tx)
    (hnodup : (p.txs.map Prod.fst).Nodup)
    (hmem : (p.removeTransaction (txH exTx)).2.memoryUsage + tx.estimateSize ≤
      p.config.maxMemory) :
    (tx.fee < satAdd exTx.fee (checkedMulOrMax exTx.fee p.config.replacementFeeBump / 100) →
      Pool.addTransactionWithReplacement txH sigOk p tx st true now =
        (.error (.replacementFeeTooLow tx.fee
          (satAdd exTx.fee (checkedMulOrMax exTx.fee p.config.replacementFeeBump / 100))), p)) ∧
    (satAdd exTx.fee (checkedMulOrMax exTx.fee p.config.replacementFeeBump / 100) ≤ tx.fee →
      ∃ p2, Pool.addTransactionWithReplacement txH sigOk p tx st true now =
          (.ok (txH tx), p2) ∧
        lookupA p2.txs (txH exTx) = none ∧
        Pool.getTransaction p2 (txH tx) = some tx) := by
  have hstep : Pool.addTransactionWithReplacement txH sigOk p tx st true now =
      p.processReplacementTransaction txH tx (txH exTx) now := by
    unfold Pool.addTransactionWithReplacement
    rw [hver]
    simp only [Bool.not_true, Bool.false_eq_true, if_false]
    rw [hdup]
    simp only [Bool.false_eq_true, if_false]
    rw [hex]
    simp
  rw [hstep]
  unfold Pool.processReplacementTransaction
  rw [hlk]
  simp only [hexP]
  constructor
  · intro hlt
    rw [if_pos hlt]
  · intro hge
    rw [if_neg (Nat.not_lt.mpr hge)]
    simp only [Pool.removeTransaction, hlk]
    simp only [Bool.not_true, Bool.false_eq_true, if_false]
    set p1mem := satSub ({ p with txs := eraseA p.txs (txH exTx) } : Pool).memoryUsage
      (exP.tx.estimateSize + szPooledTransaction + (32 + 8 + 32) + szTransactionWithFee +
        (match lookupA ({ p with txs := eraseA p.txs (txH exTx) } : Pool).byAddress exP.tx.sender with
          | some s => if s.length > 1 then 32 + 16 else 32 + 48 + 32 + 48
          | none => 32 + 48 + 32 + 48)) with hp1mem
    have hmem2 : ¬ (p1mem + tx.estimateSize > p.config.maxMemory) := by
      apply Nat.not_lt.mpr
      have : (p.removeTransaction (txH exTx)).2.memoryUsage = p1mem := by
        simp only [Pool.removeTransaction, hlk, hp1mem, hexP]
      omega
    rw [if_neg hmem2]
    exact ⟨_, rfl,
      by
        rw [lookupA_insertA_ne _ _ _ _ hneq]
        exact lookupA_eraseA_self p.txs (txH exTx) hnodup,
      by
        unfold Pool.getTransaction
        rw [lookupA_insertA_self]
        rfl⟩

/-- C3 witness: the S2 scenario — existing fee 55, bump 10%: a fee-60
replacement succeeds (old out, new in) and a fee-59 replacement fails
with ReplacementFeeTooLow requiring 60. -/
theorem replacement_floor_threshold_witness :
    (∃ p2, Pool.addTransactionWithReplacement txHashC sigOkC poolFee55
        (mkTransfer 1 2 100 60 0) richState true 1 =
          (.ok (txHashC (mkTransfer 1 2 100 60 0)), p2) ∧
      lookupA p2.txs (txHashC (mkTransfer 1 2 100 55 0)) = none ∧
      Pool.getTransaction p2 (txHashC (mkTransfer 1 2 100 60 0)) =
        some (mkTransfer 1 2 100 60 0)) ∧
    Pool.addTransactionWithReplacement txHashC sigOkC poolFee55
        (mkTransfer 1 2 100 59 0) richState true 1 =
      (.error (.replacementFeeTooLow (mkTransfer 1 2 100 59 0).fee
        (satAdd (mkTransfer 1 2 100 55 0).fee
          (checkedMulOrMax (mkTransfer 1 2 100 55 0).fee
            poolFee55.config.replacementFeeBump / 100))), poolFee55) :=
  ⟨(replacement_floor_threshold txHashC sigOkC poolFee55 (mkTransfer 1 2 100 60 0)
      (mkTransfer 1 2 100 55 0) ⟨mkTransfer 1 2 100 55 0, 0, true, 153⟩ richState 1
      (by decide) (by decide) (by decide) (by decide) (by decide) (by decide)
      (by decide) (by decide)).2 (by decide),
   (replacement_floor_threshold txHashC sigOkC poolFee55 (mkTransfer 1 2 100 59 0)
      (mkTransfer 1 2 100 55 0) ⟨mkTransfer 1 2 100 55 0, 0, true, 153⟩ richState 1
      (by decide) (by decide) (by decide) (by decide) (by decide) (by decide)
      (by decide) (by decide)).1 (by decide)⟩

/-! ## Claim C7: the pool-size cap

The capacity rule of `add_transaction_with_replacement` looks up the
minimum of the fee index via `get_lowest_fee_transaction`, which
dereferences that minimal entry through the primary index.  The fee
index keeps stale entries after `remove_transaction`; when the
minimal entry is stale the dereference yields `None` and the
`if let Some` branch silently falls through — neither rejecting nor
evicting — so the insertion proceeds and the pool exceeds
`max_size`. -/

/-- Capacity-bug fixture, step 1: pool with `max_size = 1` holding one
fee-1 transaction (fee-per-byte 0). -/
def pCap1 : Pool :=
  (Pool.addTransaction txHashC sigOkC (Pool.withConfig cfgCap1)
    (mkTransfer 1 2 1 1 0) richState 0).2

/-- Step 2: remove it again — its fee-index entry stays behind. -/
def pCap2 : Pool := (pCap1.removeTransaction (txHashC (mkTransfer 1 2 1 1 0))).2

/-- Step 3: admit a fee-200 transaction (fee-per-byte 1); the pool is
back at capacity with the stale fee-per-byte-0 entry still minimal. -/
def pCap3 : Pool :=
  (Pool.addTransaction txHashC sigOkC pCap2 (mkTransfer 3 2 1 200 0) richState 1).2

/-- Step 4: admit a fee-400 transaction into the full pool. -/
def pCap4 : Except Rejection Nat × Pool :=
  Pool.addTransaction txHashC sigOkC pCap3 (mkTransfer 5 2 1 400 0) richState 2

/-- C7 (code bug): with `max_size = 1` and the pool at capacity, the
fourth operation is neither rejected PoolFull nor preceded by an
eviction — it is admitted outright because the minimal fee-index
entry is stale (`get_lowest_fee_transaction` returns `None`), and
`len` ends at 2, exceeding `max_size`. -/
theorem pool_capacity_exceeded_bug :
    pCap4.1 = .ok (txHashC (mkTransfer 5 2 1 400 0)) ∧
    pCap3.len = 1 ∧
    pCap3.config.maxSize = 1 ∧
    Pool.getLowestFeeTransaction pCap3 = none ∧
    pCap4.2.len = 2 := by
  decide

/-! ## Claim C8: admission followed by removal -/

/-- Pool fixture with one transaction from sender 1 (memory usage
433 bytes in the model's accounting). -/
def pMem1 : Pool :=
  (Pool.addTransaction txHashC sigOkC (Pool.withConfig cfgLoose)
    (mkTransfer 1 2 1 1 0) richState 0).2

/-- The admission of a second transaction (different sender) into
`pMem1`. -/
def pMem2 : Except Rejection Nat × Pool :=
  Pool.addTransaction txHashC sigOkC pMem1 (mkTransfer 3 2 1 1 0) richState 1

/-- The removal of that second transaction again. -/
def pMem3 : Bool × Pool := pMem2.2.removeTransaction (txHashC (mkTransfer 3 2 1 1 0))

/-- C8 counterexample: admitting a transaction into a NONEMPTY pool
and removing it right away restores `len` and the per-sender index
but NOT `memory_usage`: admission adds `tx_size + 216 + 64` bytes
while removal subtracts `tx_size + 216 + 72 + 64 + 160` (the
hash-map-entry and sender-entry overheads are only accounted on
removal), so the counter ends 232 bytes below its pre-admission
value. -/
theorem admission_removal_memory_counterexample :
    pMem2.1 = .ok (txHashC (mkTransfer 3 2 1 1 0)) ∧
    pMem3.1 = true ∧
    pMem3.2.len = pMem1.len ∧
    pMem3.2.byAddress = pMem1.byAddress ∧
    pMem3.2.memoryUsage ≠ pMem1.memoryUsage := by
  decide

/-- C8 (amended): admitting a fresh transaction (plain path: not a
duplicate, no same-nonce sibling, valid nonce/balance/fee, pool below
capacity and memory thresholds) and immediately removing it restores
`len()`, the primary index and the per-sender index exactly; the
memory counter is NOT restored — it ends `72 + 48` bytes (sender
still pooled) or `72 + 160` bytes (sender's only transaction) below
its pre-admission value, clamped at zero (hence only an initially
empty pool appears restored). -/
theorem admission_removal_restores (txH : Tx → Nat) (sigOk : Tx → Bool)
    (p : Pool) (tx : Tx) (st : Nat → Nat × Nat) (now : Nat)
    (hver : Tx.verifyOk sigOk tx = true)
    (hdup : containsKeyA p.txs (txH tx) = false)
    (hex : p.findTransactionBySenderAndNonce tx.sender tx.nonce = none)
    (hnonce : tx.nonce = (st tx.sender).2)
    (hbal : ¬ (st tx.sender).1 < satAdd tx.amount tx.fee)
    (hfee : ¬ tx.fee / tx.estimateSize < p.config.minFeePerByte)
    (hcap : ¬ p.txs.length ≥ p.config.maxSize)
    (hm1 : ¬ p.memoryUsage + (tx.estimateSize + szPooledTransaction + szTransactionWithFee) >
      p.config.maxMemory * 3 / 4)
    (hm2 : ¬ p.memoryUsage + (tx.estimateSize + szPooledTransaction + szTransactionWithFee) +
      (tx.estimateSize + szPooledTransaction + szTransactionWithFee) > p.config.maxMemory)
    (hSet : ∀ S, lookupA p.byAddress tx.sender = some S → txH tx ∉ S ∧ S ≠ []) :
    ∃ p1, Pool.addTransaction txH sigOk p tx st now = (.ok (txH tx), p1) ∧
      p1.len = p.len + 1 ∧
      (p1.removeTransaction (txH tx)).1 = true ∧
      (p1.removeTransaction (txH tx)).2.txs = p.txs ∧
      (p1.removeTransaction (txH tx)).2.byAddress = p.byAddress ∧
      (p1.removeTransaction (txH tx)).2.memoryUsage =
        satSub p.memoryUsage
          (72 + match lookupA p.byAddress tx.sender with
                | some _ => 48
                | none => 160) := by
  have hlknone : lookupA p.txs (txH tx) = none := containsKeyA_false_lookup _ _ hdup
  have hstep : Pool.addTransaction txH sigOk p tx st now =
      (.ok (txH tx),
       { p with
          txs := insertA p.txs (txH tx)
            { tx := tx, addedTime := now, isValid := true, size := tx.estimateSize },
          byFee := p.byFee ++
            [{ txHash := txH tx, fee := tx.fee,
               feePerByte := tx.fee / tx.estimateSize, timestamp := now }],
          byAddress := addToSenderIndex p.byAddress tx.sender (txH tx),
          memoryUsage := p.memoryUsage +
            (tx.estimateSize + szPooledTransaction + szTransactionWithFee) }) := by
    unfold Pool.addTransaction Pool.addTransactionWithReplacement
    rw [hver]
    simp only [Bool.not_true, Bool.false_eq_true, if_false]
    rw [hdup]
    simp only [Bool.false_eq_true, if_false]
    rw [hex]
    simp only []
    rw [if_neg (by simp [hnonce]), if_neg hbal,
      if_pos (estimateSize_pos tx), if_neg hfee, if_neg hcap]
    simp only []
    rw [if_neg (by simp only [Bool.or_eq_true, decide_eq_true_iff]; omega)]
  refine ⟨_, hstep, ?_, ?_, ?_, ?_, ?_⟩
  · unfold Pool.len
    exact insertA_length_fresh p.txs (txH tx) _ hlknone
  · unfold Pool.removeTransaction
    rw [lookupA_insertA_self]
  · unfold Pool.removeTransaction
    rw [lookupA_insertA_self]
    dsimp only
    exact eraseA_insertA_fresh p.txs (txH tx) _ hlknone
  · unfold Pool.removeTransaction
    rw [lookupA_insertA_self]
    dsimp only
    unfold addToSenderIndex
    cases hS : lookupA p.byAddress tx.sender with
    | some S =>
      obtain ⟨hmemS, hne⟩ := hSet S hS
      have hcon : S.contains (txH tx) = false := by simpa using hmemS
      dsimp only
      rw [hcon]
      simp only [Bool.false_eq_true, if_false]
      rw [lookupA_insertA_self]
      dsimp only
      have herase : (S ++ [txH tx]).erase (txH tx) = S := by
        rw [List.erase_append_right _ (by simpa using hmemS)]
        simp
      rw [herase]
      have hemp : S.isEmpty = false := by
        cases S with
        | nil => exact absurd rfl hne
        | cons a l => rfl
      rw [hemp]
      simp only [Bool.false_eq_true, if_false]
      rw [insertA_insertA]
      exact insertA_self_of_lookup p.byAddress tx.sender S hS
    | none =>
      dsimp only
      rw [lookupA_append_single, hS]
      dsimp only
      rw [if_pos rfl]
      dsimp only
      have herase : ([txH tx] : List Nat).erase (txH tx) = [] := by simp
      rw [herase]
      exact eraseA_append_single p.byAddress tx.sender _ hS
  · unfold Pool.removeTransaction
    rw [lookupA_insertA_self]
    dsimp only
    unfold addToSenderIndex
    cases hS : lookupA p.byAddress tx.sender with
    | some S =>
      obtain ⟨hmemS, hne⟩ := hSet S hS
      have hcon : S.contains (txH tx) = false := by simpa using hmemS
      dsimp only
      rw [hcon]
      simp only [Bool.false_eq_true, if_false]
      rw [lookupA_insertA_self]
      dsimp only
      have hlen : ((S ++ [txH tx]).length > 1) := by
        simp only [List.length_append, List.length_singleton]
        have : S.length ≠ 0 := by simpa [List.length_eq_zero] using hne
        omega
      rw [if_pos hlen]
      unfold satSub
      omega
    | none =>
      dsimp only
      rw [lookupA_append_single, hS]
      dsimp only
      rw [if_pos rfl]
      dsimp only
      rw [if_neg (by simp)]
      unfold satSub
      omega


/-- C8 witness: the admission/removal round trip evaluated on the
nonempty fixture pool (a new sender, so the sender-entry share is
160 bytes and the counter drops by 232). -/
theorem admission_removal_restores_witness :
    ∃ p1, Pool.addTransaction txHashC sigOkC pMem1 (mkTransfer 3 2 1 1 0) richState 1 =
        (.ok (txHashC (mkTransfer 3 2 1 1 0)), p1) ∧
      p1.len = pMem1.len + 1 ∧
      (p1.removeTransaction (txHashC (mkTransfer 3 2 1 1 0))).1 = true ∧
      (p1.removeTransaction (txHashC (mkTransfer 3 2 1 1 0))).2.txs = pMem1.txs ∧
      (p1.removeTransaction (txHashC (mkTransfer 3 2 1 1 0))).2.byAddress = pMem1.byAddress ∧
      (p1.removeTransaction (txHashC (mkTransfer 3 2 1 1 0))).2.memoryUsage =
        satSub pMem1.memoryUsage
          (72 + match lookupA pMem1.byAddress (mkTransfer 3 2 1 1 0).sender with
                | some _ => 48
                | none => 160) :=
  admission_removal_restores txHashC sigOkC pMem1 (mkTransfer 3 2 1 1 0) richState 1
    (by decide) (by decide) (by decide) (by decide) (by decide) (by decide)
    (by decide) (by decide) (by decide)
    (by
      intro S hx
      rw [show lookupA pMem1.byAddress (mkTransfer 3 2 1 1 0).sender = none by decide] at hx
      cases hx)

/-! ## Claim C6: retrieval after store_block -/

theorem insertTxLocs_untouched (txH : Tx → Nat) (bh : Nat) :
    ∀ (txs : List Tx) (idx : List (Nat × (Nat × Nat))) (i0 k : Nat),
      (∀ u ∈ txs, txH u ≠ k) →
      lookupA (insertTxLocs txH bh idx txs i0) k = lookupA idx k
  | [], idx, i0, k => by
    intro _
    rfl
  | u :: rest, idx, i0, k => by
    intro hall
    unfold insertTxLocs
    rw [insertTxLocs_untouched txH bh rest _ (i0 + 1) k
      (fun v hv => hall v (List.mem_cons_of_mem u hv))]
    exact lookupA_insertA_ne idx (txH u) k _ fun hk =>
      hall u (List.mem_cons_self u rest) hk.symm

theorem insertTxLocs_lookup (txH : Tx → Nat) (bh : Nat) :
    ∀ (txs : List Tx) (idx : List (Nat × (Nat × Nat))) (i0 : Nat) (t : Tx),
      t ∈ txs →
      (∀ u ∈ txs, txH u = txH t → u = t) →
      ∃ (i : Nat) (hi : i < txs.length),
        lookupA (insertTxLocs txH bh idx txs i0) (txH t) = some (bh, i0 + i) ∧
        txs.get ⟨i, hi⟩ = t
  | [], idx, i0, t => by
    intro ht _
    simp at ht
  | u :: rest, idx, i0, t => by
    intro ht hinj
    by_cases hr : t ∈ rest
    · obtain ⟨i, hi, hlk, hget⟩ :=
        insertTxLocs_lookup txH bh rest (insertA idx (txH u) (bh, i0)) (i0 + 1) t hr
          (fun v hv hveq => hinj v (List.mem_cons_of_mem u hv) hveq)
      refine ⟨i + 1, by simpa using Nat.succ_lt_succ hi, ?_, ?_⟩
      · unfold insertTxLocs
        rw [hlk]
        have : i0 + 1 + i = i0 + (i + 1) := by omega
        rw [this]
      · simpa using hget
    · have htu : t = u := by
        cases List.mem_cons.mp ht with
        | inl h => exact h
        | inr h => exact absurd h hr
      subst htu
      refine ⟨0, by simp, ?_, by simp⟩
      unfold insertTxLocs
      rw [insertTxLocs_untouched txH bh rest _ (i0 + 1) (txH t)
        (fun v hv hveq => hr ((hinj v (List.mem_cons_of_mem t hv) hveq) ▸ hv))]
      rw [lookupA_insertA_self]
      rw [Nat.add_zero]

/-- C6: after `store_block(b)`, the block is retrievable by its
header hash and by its height, and every transaction of the block is
retrievable by its transaction hash (given that the block's
transactions have no hash collisions among themselves, which SHA-256
provides). -/
theorem storeBlock_retrieval (hh : BlockHeader → Nat) (txH : Tx → Nat)
    (st : Store) (b : Blk)
    (hinj : ∀ t1 ∈ b.transactions, ∀ t2 ∈ b.transactions, txH t1 = txH t2 → t1 = t2) :
    getBlock (storeBlock hh txH st b) (hh b.header) = some b ∧
    getBlockByHeight (storeBlock hh txH st b) b.header.height = some b ∧
    ∀ t ∈ b.transactions,
      getTransaction (storeBlock hh txH st b) (txH t) = .ok (some t) := by
  have hblk : getBlock (storeBlock hh txH st b) (hh b.header) = some b := by
    unfold getBlock storeBlock
    exact lookupA_insertA_self st.blocks (hh b.header) b
  refine ⟨hblk, ?_, ?_⟩
  · unfold getBlockByHeight
    have hh2 : lookupA (storeBlock hh txH st b).heightIdx b.header.height =
        some (hh b.header) := by
      unfold storeBlock
      exact lookupA_insertA_self st.heightIdx b.header.height (hh b.header)
    rw [hh2]
    dsimp only
    exact hblk
  · intro t ht
    obtain ⟨i, hi, hlk, hget⟩ := insertTxLocs_lookup txH (hh b.header) b.transactions
      st.txIdx 0 t ht (fun u hu => hinj u hu t ht)
    unfold getTransaction
    have htx : (storeBlock hh txH st b).txIdx =
        insertTxLocs txH (hh b.header) st.txIdx b.transactions 0 := rfl
    rw [htx, hlk]
    simp only [Nat.zero_add]
    rw [hblk]
    dsimp only
    rw [dif_pos hi, hget]

/-- The C6 witness block: two transfers from different senders. -/
def blkTwoTx : Blk := ⟨⟨1, 0, 0, 3, 0, 9, 0⟩, [mkTransfer 1 2 100 10 0, mkTransfer 3 2 50 5 0]⟩

/-- C6 witness: retrieval after storing `blkTwoTx` into the empty
store, with the concrete hash functions. -/
theorem storeBlock_retrieval_witness :
    getBlock (storeBlock headerHashC txHashC Store.empty blkTwoTx)
      (headerHashC blkTwoTx.header) = some blkTwoTx ∧
    getBlockByHeight (storeBlock headerHashC txHashC Store.empty blkTwoTx)
      blkTwoTx.header.height = some blkTwoTx ∧
    ∀ t ∈ blkTwoTx.transactions,
      getTransaction (storeBlock headerHashC txHashC Store.empty blkTwoTx) (txHashC t) =
        .ok (some t) :=
  storeBlock_retrieval headerHashC txHashC Store.empty blkTwoTx (by decide)

/-! ## Claim C4: verify_integrity on chained stores -/

theorem insertA_fresh_append {α β : Type} [DecidableEq α] (l : List (α × β)) (a : α) (b : β)
    (h : lookupA l a = none) : insertA l a b = l ++ [(a, b)] := by
  induction l with
  | nil => simp [insertA]
  | cons hd tl ih =>
    obtain ⟨k, v⟩ := hd
    by_cases hk : k = a
    · rw [lookupA, if_pos hk] at h
      exact absurd h (by simp)
    · rw [lookupA, if_neg hk] at h
      rw [insertA, if_neg hk, ih h]
      rfl

theorem lookupA_of_mem_nodup {α β : Type} [DecidableEq α] :
    ∀ (l : List (α × β)) (k : α) (v : β),
      (k, v) ∈ l → (l.map Prod.fst).Nodup → lookupA l k = some v
  | [], k, v => by
    intro hmem _
    simp at hmem
  | (k2, v2) :: tl, k, v => by
    intro hmem hnd
    simp only [List.map_cons, List.nodup_cons] at hnd
    cases List.mem_cons.mp hmem with
    | inl h =>
      obtain ⟨h1, h2⟩ := Prod.mk.injEq _ _ _ _ ▸ h
      rw [lookupA, if_pos h1.symm]
      rw [h2]
    | inr h =>
      by_cases hk : k2 = k
      · subst hk
        have : k2 ∈ tl.map Prod.fst := List.mem_map_of_mem Prod.fst h
        exact absurd this hnd.1
      · rw [lookupA, if_neg hk]
        exact lookupA_of_mem_nodup tl k v h hnd.2

theorem storeFold_heightIdx (hh : BlockHeader → Nat) (txH : Tx → Nat) :
    ∀ (bs : List Blk) (st0 : Store),
      (bs.map (fun b => b.header.height)).Nodup →
      (∀ b ∈ bs, lookupA st0.heightIdx b.header.height = none) →
      (bs.foldl (storeBlock hh txH) st0).heightIdx =
        st0.heightIdx ++ bs.map (fun b => (b.header.height, hh b.header))
  | [], st0 => by
    intro _ _
    simp
  | b :: rest, st0 => by
    intro hnd hfr
    simp only [List.map_cons, List.nodup_cons] at hnd
    simp only [List.foldl_cons, List.map_cons]
    have hstep : (storeBlock hh txH st0 b).heightIdx =
        st0.heightIdx ++ [(b.header.height, hh b.header)] :=
      insertA_fresh_append _ _ _ (hfr b (List.mem_cons_self b rest))
    rw [storeFold_heightIdx hh txH rest (storeBlock hh txH st0 b) hnd.2 ?_]
    · rw [hstep, List.append_assoc]
      rfl
    · intro c hc
      rw [hstep, lookupA_append_single, hfr c (List.mem_cons_of_mem b hc)]
      rw [if_neg ?_]
      intro heq
      exact hnd.1 (heq ▸ List.mem_map_of_mem (fun b => b.header.height) hc)

theorem storeFold_blocks (hh : BlockHeader → Nat) (txH : Tx → Nat) :
    ∀ (bs : List Blk) (st0 : Store),
      (bs.map (fun b => hh b.header)).Nodup →
      (∀ b ∈ bs, lookupA st0.blocks (hh b.header) = none) →
      (bs.foldl (storeBlock hh txH) st0).blocks =
        st0.blocks ++ bs.map (fun b => (hh b.header, b))
  | [], st0 => by
    intro _ _
    simp
  | b :: rest, st0 => by
    intro hnd hfr
    simp only [List.map_cons, List.nodup_cons] at hnd
    simp only [List.foldl_cons, List.map_cons]
    have hstep : (storeBlock hh txH st0 b).blocks =
        st0.blocks ++ [(hh b.header, b)] :=
      insertA_fresh_append _ _ _ (hfr b (List.mem_cons_self b rest))
    rw [storeFold_blocks hh txH rest (storeBlock hh txH st0 b) hnd.2 ?_]
    · rw [hstep, List.append_assoc]
      rfl
    · intro c hc
      rw [hstep, lookupA_append_single, hfr c (List.mem_cons_of_mem b hc)]
      rw [if_neg ?_]
      intro heq
      exact hnd.1 (heq ▸ List.mem_map_of_mem (fun b => hh b.header) hc)

theorem leBytes_small (a : Nat) (ha : a < 256) : leBytes a = [a, 0, 0, 0, 0, 0, 0, 0] := by
  unfold leBytes
  have h1 : a % 256 = a := Nat.mod_eq_of_lt ha
  have h2 : a / 256 = 0 := Nat.div_eq_of_lt ha
  have h3 : a / 256 ^ 2 = 0 := Nat.div_eq_of_lt (lt_of_lt_of_le ha (by norm_num))
  have h4 : a / 256 ^ 3 = 0 := Nat.div_eq_of_lt (lt_of_lt_of_le ha (by norm_num))
  have h5 : a / 256 ^ 4 = 0 := Nat.div_eq_of_lt (lt_of_lt_of_le ha (by norm_num))
  have h6 : a / 256 ^ 5 = 0 := Nat.div_eq_of_lt (lt_of_lt_of_le ha (by norm_num))
  have h7 : a / 256 ^ 6 = 0 := Nat.div_eq_of_lt (lt_of_lt_of_le ha (by norm_num))
  have h8 : a / 256 ^ 7 = 0 := Nat.div_eq_of_lt (lt_of_lt_of_le ha (by norm_num))
  rw [h1, h2, h3, h4, h5, h6, h7, h8]

theorem lexLtB_small (a b : Nat) (ha : a < 256) (hb : b < 256) :
    lexLtB (leBytes a) (leBytes b) = decide (a < b) := by
  rw [leBytes_small a ha, leBytes_small b hb]
  unfold lexLtB
  by_cases hab : a < b
  · rw [if_pos hab]
    simp [hab]
  · rw [if_neg hab]
    by_cases hba : b < a
    · rw [if_pos hba]
      simp [hab]
    · rw [if_neg hba]
      simp only [lexLtB]
      simp [hab]

theorem foldLexMax_small :
    ∀ (ks : List Nat) (k0 : Nat), k0 < 256 → (∀ k ∈ ks, k < 256) →
      (ks.foldl (fun acc k => if lexLtB (leBytes acc) (leBytes k) then k else acc) k0) < 256 ∧
      k0 ≤ ks.foldl (fun acc k => if lexLtB (leBytes acc) (leBytes k) then k else acc) k0 ∧
      ∀ k ∈ ks, k ≤ ks.foldl (fun acc k => if lexLtB (leBytes acc) (leBytes k) then k else acc) k0
  | [], k0 => by
    intro hk0 _
    refine ⟨hk0, le_refl k0, by simp⟩
  | k :: rest, k0 => by
    intro hk0 hks
    have hk : k < 256 := hks k (List.mem_cons_self k rest)
    have hrest : ∀ j ∈ rest, j < 256 := fun j hj => hks j (List.mem_cons_of_mem k hj)
    simp only [List.foldl_cons]
    rw [lexLtB_small k0 k hk0 hk]
    by_cases hlt : k0 < k
    · rw [if_pos (by simpa using hlt)]
      obtain ⟨h1, h2, h3⟩ := foldLexMax_small rest k hk hrest
      refine ⟨h1, le_of_lt (lt_of_lt_of_le hlt h2), ?_⟩
      intro j hj
      cases List.mem_cons.mp hj with
      | inl h => exact h ▸ h2
      | inr h => exact h3 j h
    · rw [if_neg (by simpa using hlt)]
      obtain ⟨h1, h2, h3⟩ := foldLexMax_small rest k0 hk0 hrest
      refine ⟨h1, h2, ?_⟩
      intro j hj
      cases List.mem_cons.mp hj with
      | inl h => exact h ▸ le_trans (Nat.le_of_not_lt hlt) h2
      | inr h => exact h3 j h

theorem foldLexMax_mem :
    ∀ (ks : List Nat) (k0 : Nat),
      (ks.foldl (fun acc k => if lexLtB (leBytes acc) (leBytes k) then k else acc) k0)
        ∈ k0 :: ks
  | [], k0 => by simp
  | k :: rest, k0 => by
    simp only [List.foldl_cons]
    by_cases hlt : lexLtB (leBytes k0) (leBytes k) = true
    · rw [if_pos hlt]
      rcases List.mem_cons.mp (foldLexMax_mem rest k) with h | h
      · rw [h]
        simp
      · exact List.mem_cons_of_mem _ (List.mem_cons_of_mem _ h)
    · rw [if_neg hlt]
      rcases List.mem_cons.mp (foldLexMax_mem rest k0) with h | h
      · rw [h]
        simp
      · exact List.mem_cons_of_mem _ (List.mem_cons_of_mem _ h)

theorem checkHeights_ok (st : Store) (hh : BlockHeader → Nat) (bs : List Blk)
    (P1 : ∀ h, h < bs.length →
      getBlockHashByHeight st h = .ok (hh ((bs.getD h defaultBlk).header)))
    (P2 : ∀ h, h < bs.length →
      getBlock st (hh ((bs.getD h defaultBlk).header)) = some (bs.getD h defaultBlk)) :
    ∀ hs : List Nat, (∀ h ∈ hs, h < bs.length) → (∀ h ∈ hs, linkOK hh bs h) →
      checkHeights st hs = .ok true
  | [] => by
    intro _ _
    rfl
  | h :: rest => by
    intro hlt hok
    have hh1 : h < bs.length := hlt h (List.mem_cons_self h rest)
    have hlink := hok h (List.mem_cons_self h rest)
    have hrec := checkHeights_ok st hh bs P1 P2 rest
      (fun j hj => hlt j (List.mem_cons_of_mem h hj))
      (fun j hj => hok j (List.mem_cons_of_mem h hj))
    unfold checkHeights
    rw [P1 h hh1]
    dsimp only
    rw [P2 h hh1]
    dsimp only
    by_cases h0 : h > 0
    · rw [if_pos h0, P1 (h - 1) (by omega)]
      dsimp only
      unfold linkOK at hlink
      rw [if_neg (by omega : ¬ h = 0)] at hlink
      rw [if_neg (by simpa using hlink)]
      exact hrec
    · rw [if_neg h0]
      have h0eq : h = 0 := by omega
      subst h0eq
      unfold linkOK at hlink
      rw [if_pos rfl] at hlink
      rw [if_neg (by simpa using hlink)]
      exact hrec

theorem checkHeights_bad (st : Store) (hh : BlockHeader → Nat) (bs : List Blk)
    (P1 : ∀ h, h < bs.length →
      getBlockHashByHeight st h = .ok (hh ((bs.getD h defaultBlk).header)))
    (P2 : ∀ h, h < bs.length →
      getBlock st (hh ((bs.getD h defaultBlk).header)) = some (bs.getD h defaultBlk)) :
    ∀ hs : List Nat, (∀ h ∈ hs, h < bs.length) →
      (∃ h ∈ hs, ¬ linkOK hh bs h) → checkHeights st hs = .ok false
  | [] => by
    intro _ hex
    simp at hex
  | h :: rest => by
    intro hlt hex
    have hh1 : h < bs.length := hlt h (List.mem_cons_self h rest)
    unfold checkHeights
    rw [P1 h hh1]
    dsimp only
    rw [P2 h hh1]
    dsimp only
    by_cases hbad : linkOK hh bs h
    · have hexr : ∃ j ∈ rest, ¬ linkOK hh bs j := by
        obtain ⟨j, hj, hjbad⟩ := hex
        cases List.mem_cons.mp hj with
        | inl hjh => exact absurd (hjh ▸ hbad) hjbad
        | inr hjr => exact ⟨j, hjr, hjbad⟩
      have hrec := checkHeights_bad st hh bs P1 P2 rest
        (fun j hj => hlt j (List.mem_cons_of_mem h hj)) hexr
      by_cases h0 : h > 0
      · rw [if_pos h0, P1 (h - 1) (by omega)]
        dsimp only
        unfold linkOK at hbad
        rw [if_neg (by omega : ¬ h = 0)] at hbad
        rw [if_neg (by simpa using hbad)]
        exact hrec
      · rw [if_neg h0]
        have h0eq : h = 0 := by omega
        subst h0eq
        unfold linkOK at hbad
        rw [if_pos rfl] at hbad
        rw [if_neg (by simpa using hbad)]
        exact hrec
    · by_cases h0 : h > 0
      · rw [if_pos h0, P1 (h - 1) (by omega)]
        dsimp only
        unfold linkOK at hbad
        rw [if_neg (by omega : ¬ h = 0)] at hbad
        rw [if_pos (by simpa using hbad)]
      · rw [if_neg h0]
        have h0eq : h = 0 := by omega
        subst h0eq
        unfold linkOK at hbad
        rw [if_pos rfl] at hbad
        rw [if_pos (by simpa using hbad)]

theorem storeAll_heightIdx (hh : BlockHeader → Nat) (txH : Tx → Nat) (bs : List Blk)
    (Hh : bs.map (fun b => b.header.height) = List.range bs.length) :
    (storeAll hh txH bs).heightIdx =
      bs.map (fun b => (b.header.height, hh b.header)) := by
  unfold storeAll
  rw [storeFold_heightIdx hh txH bs Store.empty
    (by rw [Hh]; exact List.nodup_range _) (fun b _ => rfl)]
  rfl

theorem storeAll_blocks (hh : BlockHeader → Nat) (txH : Tx → Nat) (bs : List Blk)
    (Hnd : (bs.map (fun b => hh b.header)).Nodup) :
    (storeAll hh txH bs).blocks = bs.map (fun b => (hh b.header, b)) := by
  unfold storeAll
  rw [storeFold_blocks hh txH bs Store.empty Hnd (fun b _ => rfl)]
  rfl

theorem heightAt_of_range (bs : List Blk)
    (Hh : bs.map (fun b => b.header.height) = List.range bs.length) :
    ∀ h, (hl : h < bs.length) → (bs.getD h defaultBlk).header.height = h := by
  intro h hl
  have hg : bs.getD h defaultBlk = bs.get ⟨h, hl⟩ := List.getD_eq_get bs defaultBlk hl
  have hmap : (bs.map (fun b => b.header.height)).get
      ⟨h, by simpa using hl⟩ = (List.range bs.length).get ⟨h, by simpa using hl⟩ :=
    List.get_of_eq Hh ⟨h, by simpa using hl⟩
  rw [List.get_map, List.get_range] at hmap
  rw [hg, hmap]

theorem storeAll_presence (hh : BlockHeader → Nat) (txH : Tx → Nat) (bs : List Blk)
    (Hh : bs.map (fun b => b.header.height) = List.range bs.length)
    (Hnd : (bs.map (fun b => hh b.header)).Nodup) :
    (∀ h, h < bs.length → getBlockHashByHeight (storeAll hh txH bs) h =
      .ok (hh ((bs.getD h defaultBlk).header))) ∧
    (∀ h, h < bs.length → getBlock (storeAll hh txH bs)
      (hh ((bs.getD h defaultBlk).header)) = some (bs.getD h defaultBlk)) := by
  constructor
  · intro h hl
    unfold getBlockHashByHeight
    rw [storeAll_heightIdx hh txH bs Hh]
    have hg : bs.getD h defaultBlk = bs.get ⟨h, hl⟩ := List.getD_eq_get bs defaultBlk hl
    have hmem : (h, hh ((bs.getD h defaultBlk).header)) ∈
        bs.map (fun b => (b.header.height, hh b.header)) := by
      have hx : (bs.get ⟨h, hl⟩).header.height = h := by
        have hy := heightAt_of_range bs Hh h hl
        rw [hg] at hy
        exact hy
      rw [hg]
      refine List.mem_map.mpr ⟨bs.get ⟨h, hl⟩, bs.get_mem h hl, ?_⟩
      show ((bs.get ⟨h, hl⟩).header.height, hh (bs.get ⟨h, hl⟩).header) = _
      rw [hx]
    rw [lookupA_of_mem_nodup _ h _ hmem
      (by
        have : (bs.map (fun b => (b.header.height, hh b.header))).map Prod.fst =
            bs.map (fun b => b.header.height) := by
          rw [List.map_map]
          rfl
        rw [this, Hh]
        exact List.nodup_range _)]
  · intro h hl
    unfold getBlock
    rw [storeAll_blocks hh txH bs Hnd]
    have hg : bs.getD h defaultBlk = bs.get ⟨h, hl⟩ := List.getD_eq_get bs defaultBlk hl
    have hmem : (hh ((bs.getD h defaultBlk).header), bs.getD h defaultBlk) ∈
        bs.map (fun b => (hh b.header, b)) := by
      rw [hg]
      exact List.mem_map_of_mem (fun b => (hh b.header, b)) (bs.get_mem h hl)
    exact lookupA_of_mem_nodup _ _ _ hmem
      (by
        have : (bs.map (fun b => (hh b.header, b))).map Prod.fst =
            bs.map (fun b => hh b.header) := by
          rw [List.map_map]
          rfl
        rw [this]
        exact Hnd)

theorem storeAll_latest (hh : BlockHeader → Nat) (txH : Tx → Nat)
    (b0 : Blk) (brest : List Blk)
    (Hh : (b0 :: brest).map (fun b => b.header.height) = List.range (b0 :: brest).length) :
    getLatestHeight (storeAll hh txH (b0 :: brest)) < (b0 :: brest).length ∧
    ((b0 :: brest).length ≤ 256 →
      getLatestHeight (storeAll hh txH (b0 :: brest)) = (b0 :: brest).length - 1) := by
  have hH := storeAll_heightIdx hh txH (b0 :: brest) Hh
  unfold getLatestHeight
  rw [hH]
  simp only [List.map_cons]
  rw [List.foldl_map]
  have hfold : List.foldl
      (fun acc b => if lexLtB (leBytes acc) (leBytes ((fun c => (c.header.height, hh c.header)) b).1)
        then ((fun c => (c.header.height, hh c.header)) b).1 else acc)
      (b0.header.height, hh b0.header).1 brest =
      List.foldl (fun acc k => if lexLtB (leBytes acc) (leBytes k) then k else acc)
        b0.header.height (brest.map (fun b => b.header.height)) := by
    rw [List.foldl_map]
  rw [hfold]
  have hkeys : b0.header.height :: brest.map (fun b => b.header.height) =
      List.range (b0 :: brest).length := by
    simpa using Hh
  have hmem := foldLexMax_mem (brest.map (fun b => b.header.height)) b0.header.height
  rw [hkeys] at hmem
  have hlt : List.foldl (fun acc k => if lexLtB (leBytes acc) (leBytes k) then k else acc)
      b0.header.height (brest.map (fun b => b.header.height)) < (b0 :: brest).length :=
    List.mem_range.mp hmem
  refine ⟨hlt, ?_⟩
  intro h256
  have hall : ∀ k ∈ b0.header.height :: brest.map (fun b => b.header.height), k < 256 := by
    intro k hk
    rw [hkeys] at hk
    have := List.mem_range.mp hk
    omega
  obtain ⟨_, h2, h3⟩ := foldLexMax_small (brest.map (fun b => b.header.height))
    b0.header.height (hall _ (List.mem_cons_self _ _))
    (fun k hk => hall k (List.mem_cons_of_mem _ hk))
  have hn_mem : (b0 :: brest).length - 1 ∈
      b0.header.height :: brest.map (fun b => b.header.height) := by
    rw [hkeys]
    exact List.mem_range.mpr (by simp)
  have hn_le : (b0 :: brest).length - 1 ≤
      List.foldl (fun acc k => if lexLtB (leBytes acc) (leBytes k) then k else acc)
        b0.header.height (brest.map (fun b => b.header.height)) := by
    cases List.mem_cons.mp hn_mem with
    | inl h => exact h ▸ h2
    | inr h => exact h3 _ h
  omega

/-- C4 counterexample: a store holding exactly one block, at height 0
with a NONZERO `prev_hash`, is produced by `store_block` calls whose
only link (the genesis all-zero rule) is broken — yet
`verify_integrity` returns true, because `latest_height = 0` is
indistinguishable from the empty store and is reported trivially
valid. -/
theorem verifyIntegrity_bad_genesis_counterexample :
    ([badGenesis].map (fun b => b.header.height) = List.range 1) ∧
    ¬ ChainOK headerHashC [badGenesis] ∧
    verifyIntegrity (storeAll headerHashC txHashC [badGenesis]) = .ok true := by
  refine ⟨by decide, ?_, by decide⟩
  intro hc
  have := hc 0 (by decide)
  unfold linkOK at this
  rw [if_pos rfl] at this
  exact absurd this (by decide)

/-- C4 (amended): for a store produced exclusively by `store_block`
calls storing blocks at heights 0, 1, …, n in order (with distinct
header hashes), `verify_integrity` returns true whenever the blocks
form a chain (genesis `prev_hash` all-zero, every later `prev_hash`
the header hash one height below); and — provided n ≤ 255, so that
the lexicographic little-endian scan of `get_latest_height` finds the
true latest height, and the break is not at a lone height 0, which is
treated as an empty store — it returns false whenever a link is
broken. -/
theorem verifyIntegrity_chain_links (hh : BlockHeader → Nat) (txH : Tx → Nat) (bs : List Blk)
    (Hh : bs.map (fun b => b.header.height) = List.range bs.length)
    (Hnd : (bs.map (fun b => hh b.header)).Nodup) :
    (ChainOK hh bs → verifyIntegrity (storeAll hh txH bs) = .ok true) ∧
    (∀ k, k < bs.length → bs.length ≤ 256 → (k = 0 → 2 ≤ bs.length) →
      ¬ linkOK hh bs k → verifyIntegrity (storeAll hh txH bs) = .ok false) := by
  cases bs with
  | nil =>
    constructor
    · intro _
      rfl
    · intro k hk
      simp at hk
  | cons b0 brest =>
    obtain ⟨P1, P2⟩ := storeAll_presence hh txH (b0 :: brest) Hh Hnd
    obtain ⟨hlt, h256eq⟩ := storeAll_latest hh txH b0 brest Hh
    constructor
    · intro hchain
      unfold verifyIntegrity
      by_cases hL : getLatestHeight (storeAll hh txH (b0 :: brest)) = 0
      · rw [if_pos hL]
      · rw [if_neg hL]
        apply checkHeights_ok _ hh (b0 :: brest) P1 P2
        · intro h hmem
          rw [List.mem_reverse] at hmem
          have := List.mem_range.mp hmem
          omega
        · intro h hmem
          rw [List.mem_reverse] at hmem
          have := List.mem_range.mp hmem
          exact hchain h (by omega)
    · intro k hk h256 h2len hbad
      have hLn := h256eq h256
      have hLge : 1 ≤ getLatestHeight (storeAll hh txH (b0 :: brest)) := by
        by_cases hk0 : k = 0
        · have := h2len hk0
          simp only [List.length_cons] at hLn this
          omega
        · simp only [List.length_cons] at hLn hk
          omega
      unfold verifyIntegrity
      rw [if_neg (by omega)]
      apply checkHeights_bad _ hh (b0 :: brest) P1 P2
      · intro h hmem
        rw [List.mem_reverse] at hmem
        have := List.mem_range.mp hmem
        omega
      · refine ⟨k, ?_, hbad⟩
        rw [List.mem_reverse]
        apply List.mem_range.mpr
        simp only [List.length_cons] at hLn hk
        omega

/-- C4 witness: the true branch on the two-block chain
`[genesisZ, blockOne]` and the false branch on
`[genesisZ, blockOneBad]`, whose height-1 link is broken. -/
theorem verifyIntegrity_chain_links_witness :
    verifyIntegrity (storeAll headerHashC txHashC [genesisZ, blockOne]) = .ok true ∧
    verifyIntegrity (storeAll headerHashC txHashC [genesisZ, blockOneBad]) = .ok false :=
  ⟨(verifyIntegrity_chain_links headerHashC txHashC [genesisZ, blockOne]
      (by decide) (by decide)).1 (by decide),
   (verifyIntegrity_chain_links headerHashC txHashC [genesisZ, blockOneBad]
      (by decide) (by decide)).2 1 (by decide) (by decide) (by omega) (by decide)⟩

/-! ## Claim C1: greedy, dependency-respecting selection -/

theorem not_better_iff (x c : Nat × PooledTx) :
    ¬ Better x c ↔
      calculateFeePerByte x.2.tx ≤ calculateFeePerByte c.2.tx ∧
      (calculateFeePerByte x.2.tx = calculateFeePerByte c.2.tx →
        c.2.addedTime ≤ x.2.addedTime) := by
  unfold Better
  omega

theorem better_trans (a b c : Nat × PooledTx) (h1 : Better a b) (h2 : Better b c) :
    Better a c := by
  unfold Better at h1 h2 ⊢
  omega

theorem not_better_trans (a b c : Nat × PooledTx)
    (h1 : ¬ Better a b) (h2 : ¬ Better b c) : ¬ Better a c := by
  unfold Better at h1 h2 ⊢
  omega

theorem pickFold :
    ∀ (l : List (Nat × PooledTx)) (m : Nat × PooledTx),
      ∃ c, l.foldl
          (fun acc x =>
            match acc with
            | none => some x
            | some m2 => if Better x m2 then some x else some m2)
          (some m) = some c ∧
        (c = m ∨ c ∈ l) ∧ ¬ Better m c ∧ ∀ x ∈ l, ¬ Better x c
  | [], m => ⟨m, rfl, Or.inl rfl, fun h => (by
      unfold Better at h
      omega), by simp⟩
  | x :: rest, m => by
    by_cases hb : Better x m
    · obtain ⟨c, hc, hmem, hnb, hall⟩ := pickFold rest x
      refine ⟨c, ?_, ?_, ?_, ?_⟩
      · simp only [List.foldl_cons, if_pos hb]
        exact hc
      · cases hmem with
        | inl h => exact Or.inr (h ▸ List.mem_cons_self x rest)
        | inr h => exact Or.inr (List.mem_cons_of_mem x h)
      · intro hmc
        exact hnb (better_trans x m c hb hmc)
      · intro y hy
        cases List.mem_cons.mp hy with
        | inl h => exact h ▸ hnb
        | inr h => exact hall y h
    · obtain ⟨c, hc, hmem, hnb, hall⟩ := pickFold rest m
      refine ⟨c, ?_, ?_, hnb, ?_⟩
      · simp only [List.foldl_cons, if_neg hb]
        exact hc
      · cases hmem with
        | inl h => exact Or.inl h
        | inr h => exact Or.inr (List.mem_cons_of_mem x h)
      · intro y hy
        cases List.mem_cons.mp hy with
        | inl h => exact h ▸ not_better_trans x m c hb hnb
        | inr h => exact hall y h

theorem pickFirstMin_spec (l : List (Nat × PooledTx)) (c : Nat × PooledTx)
    (h : pickFirstMin l = some c) : c ∈ l ∧ ∀ x ∈ l, ¬ Better x c := by
  cases l with
  | nil => simp [pickFirstMin] at h
  | cons x rest =>
    obtain ⟨c2, hc2, hmem, hnb, hall⟩ := pickFold rest x
    unfold pickFirstMin at h
    simp only [List.foldl_cons] at h
    rw [hc2] at h
    obtain rfl : c2 = c := by simpa using h
    refine ⟨?_, ?_⟩
    · cases hmem with
      | inl hh => exact hh ▸ List.mem_cons_self x rest
      | inr hh => exact List.mem_cons_of_mem x hh
    · intro y hy
      cases List.mem_cons.mp hy with
      | inl hh => exact hh ▸ hnb
      | inr hh => exact hall y hh

theorem pickFirstMin_none (l : List (Nat × PooledTx))
    (h : pickFirstMin l = none) : l = [] := by
  cases l with
  | nil => rfl
  | cons x rest =>
    obtain ⟨c2, hc2, _, _, _⟩ := pickFold rest x
    unfold pickFirstMin at h
    simp only [List.foldl_cons] at h
    rw [hc2] at h
    cases h

theorem candidates_mem (txs : List (Nat × PooledTx)) (pr : List Nat)
    (ss : Nat → Nat × Nat) (e : Nat × PooledTx) :
    e ∈ candidates txs pr ss ↔
      e ∈ txs ∧ e.1 ∉ pr ∧ e.2.isValid = true ∧
      e.2.tx.nonce = (ss e.2.tx.sender).2 ∧
      ¬ ((ss e.2.tx.sender).1 < satAdd e.2.tx.amount e.2.tx.fee) := by
  unfold candidates
  rw [List.mem_filter]
  simp [List.elem_iff]
  tauto

theorem selLoop_props (txs : List (Nat × PooledTx))
    (HwfTx : ∀ e ∈ txs, e.2.tx.amount + e.2.tx.fee < U64) :
    ∀ (fuel : Nat) (ss : Nat → Nat × Nat) (pr : List Nat),
      (∀ s, (ss s).1 < U64) →
      (∀ s, (ss s).2 + fuel < U64) →
      (selLoop txs fuel ss pr).length ≤ fuel ∧
      (∀ s, ((selLoop txs fuel ss pr).filter (fun t => t.sender == s)).map
          (fun t => t.nonce) =
        List.range' (ss s).2
          (((selLoop txs fuel ss pr).filter (fun t => t.sender == s)).length)) ∧
      (∀ s, (((selLoop txs fuel ss pr).filter (fun t => t.sender == s)).map
        (fun t => t.amount + t.fee)).sum ≤ (ss s).1) ∧
      Greedy txs ss pr fuel (selLoop txs fuel ss pr)
  | 0, ss, pr => by
    intro _ _
    refine ⟨by simp [selLoop], ?_, ?_, Greedy.stop ss pr⟩
    · intro s
      simp [selLoop]
    · intro s
      simp [selLoop]
  | fuel + 1, ss, pr => by
    intro Hbal Hnon
    cases hpick : pickFirstMin (candidates txs pr ss) with
    | none =>
      have hcand := pickFirstMin_none _ hpick
      have hsel : selLoop txs (fuel + 1) ss pr = [] := by
        unfold selLoop
        rw [hpick]
      rw [hsel]
      exact ⟨by simp, by intro s; simp, by intro s; simp,
        Greedy.exhausted ss pr fuel hcand⟩
    | some e =>
      have hsel : selLoop txs (fuel + 1) ss pr =
          e.2.tx :: selLoop txs fuel (updateSenderState ss e.2.tx) (e.1 :: pr) := by
        conv_lhs => unfold selLoop
        rw [hpick]
      obtain ⟨hm, hbest⟩ := pickFirstMin_spec _ _ hpick
      obtain ⟨hintxs, hnp, hvalid, hnonce, hbalcand⟩ :=
        (candidates_mem txs pr ss e).mp hm
      have hwf := HwfTx e hintxs
      have hsat : satAdd e.2.tx.amount e.2.tx.fee = e.2.tx.amount + e.2.tx.fee :=
        satAdd_eq _ _ hwf
      have htot : e.2.tx.amount + e.2.tx.fee ≤ (ss e.2.tx.sender).1 := by
        rw [hsat] at hbalcand
        omega
      have hub : ∀ s, (updateSenderState ss e.2.tx s).1 < U64 := by
        intro s
        unfold updateSenderState
        by_cases hs : s = e.2.tx.sender
        · rw [if_pos hs]
          dsimp only
          rw [wrapAdd_eq _ _ hwf, wrapSub_eq _ _ (Hbal _) htot]
          have := Hbal e.2.tx.sender
          omega
        · rw [if_neg hs]
          exact Hbal s
      have hun : ∀ s, (updateSenderState ss e.2.tx s).2 + fuel < U64 := by
        intro s
        unfold updateSenderState
        by_cases hs : s = e.2.tx.sender
        · rw [if_pos hs]
          dsimp only
          have h1 := Hnon e.2.tx.sender
          rw [wrapAdd_eq (ss e.2.tx.sender).2 1 (by omega)]
          omega
        · rw [if_neg hs]
          have := Hnon s
          omega
      obtain ⟨ih1, ih2, ih3, ih4⟩ := selLoop_props txs HwfTx fuel
        (updateSenderState ss e.2.tx) (e.1 :: pr) hub hun
      have hupS1 : (updateSenderState ss e.2.tx e.2.tx.sender).1 =
          (ss e.2.tx.sender).1 - (e.2.tx.amount + e.2.tx.fee) := by
        unfold updateSenderState
        rw [if_pos rfl]
        dsimp only
        rw [wrapAdd_eq _ _ hwf, wrapSub_eq _ _ (Hbal _) htot]
      have hupS2 : (updateSenderState ss e.2.tx e.2.tx.sender).2 =
          (ss e.2.tx.sender).2 + 1 := by
        unfold updateSenderState
        rw [if_pos rfl]
        dsimp only
        have h1 := Hnon e.2.tx.sender
        rw [wrapAdd_eq (ss e.2.tx.sender).2 1 (by omega)]
      have hupNe : ∀ s, s ≠ e.2.tx.sender → updateSenderState ss e.2.tx s = ss s := by
        intro s hs
        unfold updateSenderState
        rw [if_neg hs]
      rw [hsel]
      refine ⟨?_, ?_, ?_, ?_⟩
      · simp only [List.length_cons]
        omega
      · intro s
        by_cases hs : e.2.tx.sender = s
        · subst hs
          rw [List.filter_cons_of_pos (by simp)]
          simp only [List.map_cons, List.length_cons]
          have hIH := ih2 e.2.tx.sender
          rw [hupS2] at hIH
          rw [hIH, hnonce, List.range'_succ]
        · rw [List.filter_cons_of_neg (by simp [hs])]
          have hIH := ih2 s
          rw [hupNe s (fun h => hs h.symm)] at hIH
          exact hIH
      · intro s
        by_cases hs : e.2.tx.sender = s
        · subst hs
          rw [List.filter_cons_of_pos (by simp)]
          simp only [List.map_cons, List.sum_cons]
          have hIH := ih3 e.2.tx.sender
          rw [hupS1] at hIH
          omega
        · rw [List.filter_cons_of_neg (by simp [hs])]
          have hIH := ih3 s
          rw [hupNe s (fun h => hs h.symm)] at hIH
          exact hIH
      · refine Greedy.pick ss pr fuel e _ ⟨hm, ?_⟩ ih4
        intro x hx
        have hnb := hbest x hx
        rw [not_better_iff] at hnb
        exact hnb

/-- C1: `select_transactions(max_count, state)` returns at most
`max_count` transactions; per sender, the selected transactions carry
consecutive increasing nonces starting at that sender's nonce in
`state` (P1); every running (prefix) sum of `amount + fee` of a
sender's selections stays within that sender's balance in `state`
(P2); and the output is a greedy sequence of best picks — each pick a
highest fee-per-byte candidate among the transactions still valid
under the projected sender states (P3), with equal fee-per-byte ties
going to the earlier `added_time` (P4), captured by the `Greedy`
predicate.  The hypotheses are the u64 well-formedness side
conditions: pooled transactions have non-overflowing `amount + fee`
(guaranteed by `Transaction::verify` at admission) and balances and
nonces stay within u64 during the selection. -/
theorem select_transactions_greedy (p : Pool) (maxCount : Nat) (st : Nat → Nat × Nat)
    (HwfTx : ∀ e ∈ p.txs, e.2.tx.amount + e.2.tx.fee < U64)
    (Hbal : ∀ s, (st s).1 < U64)
    (Hnon : ∀ s, (st s).2 + maxCount < U64) :
    (p.selectTransactions maxCount st).length ≤ maxCount ∧
    (∀ s, ((p.selectTransactions maxCount st).filter (fun t => t.sender == s)).map
        (fun t => t.nonce) =
      List.range' (st s).2
        (((p.selectTransactions maxCount st).filter (fun t => t.sender == s)).length)) ∧
    (∀ s k, ((((p.selectTransactions maxCount st).filter (fun t => t.sender == s)).map
      (fun t => t.amount + t.fee)).take k).sum ≤ (st s).1) ∧
    Greedy p.txs st [] maxCount (p.selectTransactions maxCount st) := by
  unfold Pool.selectTransactions
  obtain ⟨h1, h2, h3, h4⟩ := selLoop_props p.txs HwfTx maxCount st [] Hbal Hnon
  refine ⟨h1, h2, ?_, h4⟩
  intro s k
  have hfull := h3 s
  have hsplit := List.sum_take_add_sum_drop
    (((selLoop p.txs maxCount st []).filter (fun t => t.sender == s)).map
      (fun t => t.amount + t.fee)) k
  omega

/-- Selection witness pool: three valid single-nonce transactions
from senders 1, 2, 3 with fees 200, 400, 300 (the S3 scenario). -/
def poolSel : Pool :=
  { config := cfgLoose,
    txs := [(11, ⟨mkTransfer 1 9 100 200 0, 0, true, 153⟩),
            (12, ⟨mkTransfer 2 9 100 400 0, 1, true, 153⟩),
            (13, ⟨mkTransfer 3 9 100 300 0, 2, true, 153⟩)],
    byFee := [], byAddress := [], memoryUsage := 0 }

/-- C1 witness: the greedy-selection properties evaluated on the
three-sender fixture pool with `max_count = 3`. -/
theorem select_transactions_greedy_witness :
    (poolSel.selectTransactions 3 richState).length ≤ 3 ∧
    (∀ s, ((poolSel.selectTransactions 3 richState).filter (fun t => t.sender == s)).map
        (fun t => t.nonce) =
      List.range' (richState s).2
        (((poolSel.selectTransactions 3 richState).filter (fun t => t.sender == s)).length)) ∧
    (∀ s k, ((((poolSel.selectTransactions 3 richState).filter (fun t => t.sender == s)).map
      (fun t => t.amount + t.fee)).take k).sum ≤ (richState s).1) ∧
    Greedy poolSel.txs richState [] 3 (poolSel.selectTransactions 3 richState) :=
  select_transactions_greedy poolSel 3 richState (by decide)
    (fun _ => by norm_num [richState, U64])
    (fun _ => by norm_num [richState, U64])

end Blocana
